import Mathlib

/-!
POCSAG encoder (`pocsag.c`): embedding and verification

A shallow embedding of the codec in `pocsag.c`.  Every `uint32_t` is a `Nat`
kept below `2 ^ 32` by an explicit `u32` wherever the C operation can wrap
(left shifts, increments, the multiplication in `addressOffset`).  The output
pointer `out` is modelled by the list of the words stored through it, in the
order they are stored.
-/

namespace Pocsag

/-! ## Constants (`pocsag.c` lines 16-62) -/

def SYNC : Nat := 0x7CD215D8
def IDLE : Nat := 0x7A89C197
def FRAME_SIZE : Nat := 2
def BATCH_SIZE : Nat := 16
def PREAMBLE_LENGTH : Nat := 576
def FLAG_ADDRESS : Nat := 0x000000
def FLAG_MESSAGE : Nat := 0x100000
def FLAG_TEXT_DATA : Nat := 0x3
def TEXT_BITS_PER_WORD : Nat := 20
def TEXT_BITS_PER_CHAR : Nat := 7
def CRC_BITS : Nat := 10
def CRC_GENERATOR : Nat := 0b11101101001

/-- Truncation of a natural number to a `uint32_t`. -/
def u32 (x : Nat) : Nat := x % 2 ^ 32

/-- A byte of a C string (`char`, read through `unsigned char`). -/
abbrev Byte := Fin 256

/-! ## Codeword encoder (`pocsag.c` lines 72-125) -/

/-- One iteration of the loop of `crc` (lines 80-92).  The state is
`(msg, denominator)`; `column` is the loop variable. -/
def crcStep (s : Nat × Nat) (column : Nat) : Nat × Nat :=
  let msgBit := (s.1 >>> (30 - column)) &&& 1
  let msg := if msgBit ≠ 0 then s.1 ^^^ s.2 else s.1
  (msg, s.2 >>> 1)

/-- The function `crc` (lines 72-96): `column` runs over `0, 1, ..., 20`. -/
def crc (inputMsg : Nat) : Nat :=
  let denominator := u32 (CRC_GENERATOR <<< 20)
  let msg := u32 (inputMsg <<< CRC_BITS)
  let s := (List.range 21).foldl crcStep (msg, denominator)
  s.1 &&& 0x3FF

/-- One iteration of the loop of `parity` (lines 111-114).  The state is
`(p, x)`. -/
def parityStep (s : Nat × Nat) (_i : Nat) : Nat × Nat :=
  (s.1 ^^^ (s.2 &&& 1), s.2 >>> 1)

/-- The function `parity` (lines 103-116): 32 iterations. -/
def parity (x : Nat) : Nat :=
  ((List.range 32).foldl parityStep (0, x)).1

/-- The function `encodeCodeword` (lines 121-125). -/
def encodeCodeword (msg : Nat) : Nat :=
  let fullCRC := u32 (msg <<< CRC_BITS) ||| crc msg
  let p := parity fullCRC
  u32 (fullCRC <<< 1) ||| p

/-! ## Message framer (`pocsag.c` lines 135-262) -/

/-- The local variables of `encodeASCII` (lines 136-146), together with the
words stored through `out` so far. -/
structure EncState where
  out : List Nat
  numWordsWritten : Nat
  currentWord : Nat
  currentNumBits : Nat
  wordPosition : Nat
deriving Repr, DecidableEq

/-- Lines 164-172 and, identically, 185-193: advance the position in the
batch and store a SYNC word when the batch is full. -/
def advancePosition (s : EncState) : EncState :=
  let wordPosition := u32 (s.wordPosition + 1)
  if wordPosition = BATCH_SIZE then
    { s with
      out := s.out ++ [SYNC]
      numWordsWritten := u32 (s.numWordsWritten + 1)
      wordPosition := 0 }
  else
    { s with wordPosition := wordPosition }

/-- The body of the inner loop of `encodeASCII` (lines 153-173) for the
character `c` and the bit index `i`. -/
def bitStep (c : Nat) (s : EncState) (i : Nat) : EncState :=
  let currentWord := u32 (s.currentWord <<< 1)
  let currentWord := currentWord ||| ((c >>> i) &&& 1)
  let currentNumBits := u32 (s.currentNumBits + 1)
  if currentNumBits = TEXT_BITS_PER_WORD then
    advancePosition
      { s with
        out := s.out ++ [encodeCodeword (currentWord ||| FLAG_MESSAGE)]
        currentWord := 0
        currentNumBits := 0
        numWordsWritten := u32 (s.numWordsWritten + 1) }
  else
    { s with currentWord := currentWord, currentNumBits := currentNumBits }

/-- The body of the outer loop of `encodeASCII` (lines 149-174) for one
character: `i` runs over `0, ..., TEXT_BITS_PER_CHAR - 1`. -/
def charStep (s : EncState) (ch : Byte) : EncState :=
  (List.range TEXT_BITS_PER_CHAR).foldl (bitStep ch.val) s

/-- The `while (*str != 0)` loop of `encodeASCII` (lines 148-175).  The list
holds the bytes at `str`; the loop ends at the first zero byte, or at the end
of the list, where the terminating NUL of the C string stands. -/
def encodeLoop : List Byte → EncState → EncState
  | [], s => s
  | ch :: rest, s => if ch = 0 then s else encodeLoop rest (charStep s ch)

/-- Lines 178-194 of `encodeASCII`: the last, partly filled word. -/
def flushRemainder (s : EncState) : EncState :=
  if s.currentNumBits > 0 then
    let currentWord := u32 (s.currentWord <<< (20 - s.currentNumBits))
    advancePosition
      { s with
        out := s.out ++ [encodeCodeword (currentWord ||| FLAG_MESSAGE)]
        currentWord := currentWord
        numWordsWritten := u32 (s.numWordsWritten + 1) }
  else s

/-- The state with which `encodeASCII` enters its loop (lines 136-146). -/
def initState (initial_offset : Nat) : EncState :=
  { out := [], numWordsWritten := 0, currentWord := 0, currentNumBits := 0,
    wordPosition := initial_offset }

/-- The state in which `encodeASCII` ends. -/
def encodeASCIIState (initial_offset : Nat) (str : List Byte) : EncState :=
  flushRemainder (encodeLoop str (initState initial_offset))

/-- The function `encodeASCII` (lines 135-197): the value it returns and the
words it stores through `out`. -/
def encodeASCII (initial_offset : Nat) (str : List Byte) : Nat × List Nat :=
  let s := encodeASCIIState initial_offset str
  (s.numWordsWritten, s.out)

/-- The function `addressOffset` (lines 206-208). -/
def addressOffset (address : Nat) : Nat :=
  u32 ((address &&& 0x7) * FRAME_SIZE)

/-- The function `encodeTransmission` (lines 215-262): the words stored
through `out`, in order.  `address` is an `int` in the source; the model
covers the non-negative values, the only ones `main` passes.  The pointer is
advanced by the value `encodeASCII` returns (line 247), and `written` is the
pointer difference `out - start` (line 256).  The list is the content of the
buffer as long as that value is the number of words `encodeASCII` stored,
that is, as long as its 32-bit counter has not wrapped. -/
def encodeTransmission (address : Nat) (message : List Byte) : List Nat :=
  let preamble := List.replicate (PREAMBLE_LENGTH / 32) 0xAAAAAAAA
  let prefixLength := addressOffset address
  let idles := List.replicate prefixLength IDLE
  let addressWord :=
    encodeCodeword (u32 ((address >>> 3) <<< 2) ||| FLAG_TEXT_DATA)
  let r := encodeASCII (u32 (addressOffset address + 1)) message
  let written := 1 + prefixLength + 1 + r.1 + 1
  let padding := (BATCH_SIZE + 1) - written % (BATCH_SIZE + 1)
  preamble ++ [SYNC] ++ idles ++ [addressWord] ++ r.2 ++ [IDLE]
    ++ List.replicate padding IDLE

/-- The function `textMessageLength` (lines 268-297).  `numChars` is an `int`
and `numChars * 7 + 19` is computed in `int`; the model is the exact value,
which is the C value whenever that sum fits a signed 32-bit integer. -/
def textMessageLength (address : Nat) (numChars : Nat) : Nat :=
  let numWords := 0
  let numWords := numWords + addressOffset address
  let numWords := numWords + 1
  let numWords := numWords +
    (numChars * TEXT_BITS_PER_CHAR + (TEXT_BITS_PER_WORD - 1)) / TEXT_BITS_PER_WORD
  let numWords := numWords + 1
  let numWords := numWords + (BATCH_SIZE - numWords % BATCH_SIZE)
  let numWords := numWords + numWords / BATCH_SIZE
  let numWords := numWords + PREAMBLE_LENGTH / 32
  numWords

/-! ## Waveform renderer (`pocsag.c` lines 312-388) -/

def SYMRATE : Nat := 38400

/-- The function `pcmTransmissionLength` (lines 314-321).  The arithmetic is
done in `size_t`; the model is the exact value, which is the C value as long
as `transmissionLength * 32 * sampleRate` and the result fit `size_t` (taken
64 bits wide in the theorems that bound them). -/
def pcmTransmissionLength (sampleRate baudRate transmissionLength : Nat) : Nat :=
  transmissionLength * 32 * sampleRate / baudRate * 2

/-- Lines 359-364: the `int16_t` sample of a bit; `/` of C truncates towards
zero. -/
def bitSample (bit : Nat) : Int :=
  if bit = 0 then Int.tdiv 32767 2 else Int.tdiv (-32767) 2

/-- Lines 353-371, the body of the loop over the words: for each of the 32
bits of `val`, most significant first, `repeatsPerBit` samples are stored
through `psamples`. -/
def wordStep (repeatsPerBit : Nat) (psamples : List Int) (val : Nat) : List Int :=
  (List.range 32).foldl
    (fun ps bitNum =>
      let bit := (val >>> (31 - bitNum)) &&& 1
      let sample := bitSample bit
      (List.range repeatsPerBit).foldl (fun ps _r => ps ++ [sample]) ps)
    psamples

/-- Lines 349-372: the content of the temporary buffer `samples` after the
first loop. -/
def synthesize (repeatsPerBit : Nat) (transmission : List Nat) : List Int :=
  transmission.foldl (wordStep repeatsPerBit) []

/-- Lines 378-383, the body of the resampling loop for the loop variable `i`.
The state is the bytes stored through `out` so far, or `none` once a read has
fallen outside the temporary buffer.  The index is computed in `size_t`; the
model is the exact value, which is the C value as long as `(i / 2) * SYMRATE`
fits `size_t`.  On a two's-complement `int16_t`, `x & 0xFF` is `x` modulo 256
and `x >> 8` is the arithmetic shift. -/
def resampleStep (sampleRate : Nat) (samples : List Int)
    (out : Option (List Nat)) (i : Nat) : Option (List Nat) :=
  match out with
  | none => none
  | some bytes =>
    match samples[(i / 2) * SYMRATE / sampleRate]? with
    | none => none
    | some inSample =>
      some (bytes ++ [(inSample % 256).toNat, (Int.shiftRight inSample 8 % 256).toNat])

/-- The function `pcmEncodeTransmission` (lines 331-388): the bytes stored
through `out`, or `none` when a read falls outside the temporary buffer.  The
loop variable `i` of the second loop takes the values `0, 2, 4, ...` below
`outputSize`.  Both rates are meant positive: the C divisions by `baudRate`
and `sampleRate` are undefined at zero. -/
def pcmEncodeTransmission (sampleRate baudRate : Nat) (transmission : List Nat) :
    Option (List Nat) :=
  let repeatsPerBit := SYMRATE / baudRate
  let samples := synthesize repeatsPerBit transmission
  let outputSize := pcmTransmissionLength sampleRate baudRate transmission.length
  ((List.range ((outputSize + 1) / 2)).map (fun k => 2 * k)).foldl
    (resampleStep sampleRate samples) (some [])

/-! ## Specification-side definitions -/

/-- The number of set bits among the `n` low bits of `x`. -/
def bitCount (n x : Nat) : Nat :=
  ((List.range n).filter (fun i => x.testBit i)).length

/-- The number of set bits of a 32-bit word. -/
def popCount32 (x : Nat) : Nat := bitCount 32 x

/-- The product of two polynomials over GF(2), each given by the number whose
binary digits are its coefficients: `a(x) * b(x)` is `a_0 * b(x)` plus `x`
times `(a(x) / x) * b(x)`, and addition of polynomials is `^^^`. -/
def gf2Mul (a b : Nat) : Nat :=
  if a = 0 then 0
  else (if a % 2 = 1 then b else 0) ^^^ 2 * gf2Mul (a / 2) b
termination_by a
decreasing_by omega

/-- The 20 text bits of a word: its bits 30 down to 11, most significant
first. -/
def textBits (w : Nat) : List Bool :=
  (List.range 20).map (fun j => w.testBit (30 - j))

/-- The text bit stream of a word sequence: the SYNC words are dropped and the
text bits of the remaining words are concatenated. -/
def decodeStream (ws : List Nat) : List Bool :=
  (ws.filter (fun w => w ≠ SYNC)).flatMap textBits

/-- The bits of a message in transmission order: for each byte, its bits 0 to
6, least significant first. -/
def msgBits (m : List Byte) : List Bool :=
  m.flatMap (fun ch => (List.range 7).map (fun i => ch.val.testBit i))

/-- The value of a group of bits read in reverse: the first bit of the group
is the least significant. -/
def groupValue : List Bool → Nat
  | [] => 0
  | b :: rest => (if b then 1 else 0) + 2 * groupValue rest

/-- The `n` low bits of `w`, most significant first. -/
def accBits : Nat → Nat → List Bool
  | 0, _ => []
  | n + 1, w => accBits n (w / 2) ++ [w.testBit 0]

/-- The invariant of the loops of `encodeASCII`, for the start position `p`
and the bits `bs` consumed so far. -/
structure EncInv (p : Nat) (bs : List Bool) (s : EncState) : Prop where
  numBits : s.currentNumBits = bs.length % 20
  word_lt : s.currentWord < 2 ^ (bs.length % 20)
  pos : s.wordPosition = (p + bs.length / 20) % 16
  len : s.out.length = bs.length / 20 + (p + bs.length / 20) / 16
  count : s.numWordsWritten = s.out.length % 2 ^ 32
  valid : ∀ w ∈ s.out,
    w = SYNC ∨ ∃ x, x < 2 ^ 20 ∧ w = encodeCodeword (x ||| FLAG_MESSAGE)
  stream : decodeStream s.out ++ accBits s.currentNumBits s.currentWord = bs

/-- The number of IDLE words at the head of a word sequence. -/
def idleCount (ws : List Nat) : Nat :=
  (ws.takeWhile (fun w => w = IDLE)).length

/-- The SYNC words of `l`, written from position `p` of a batch, stand
exactly where a batch ends: index `j` holds SYNC if and only if
`(p + j + 1) % 17 = 0`. -/
def SyncPos (p : Nat) (l : List Nat) : Prop :=
  ∀ j, l[j]? = some SYNC ↔ (j < l.length ∧ (p + j + 1) % 17 = 0)

/-- The length of a C string: the number of bytes before the first NUL. -/
def strlen (m : List Byte) : Nat :=
  (m.takeWhile (fun ch => ch ≠ 0)).length

/-- Bit number `b` of a word stream: the words in order, each most
significant bit first. -/
def streamBit (ws : List Nat) (b : Nat) : Nat :=
  (ws.getD (b / 32) 0 >>> (31 - b % 32)) &&& 1

/-- Output sample `n` of a byte stream: the signed 16-bit value whose low byte
is byte `2 * n` and whose high byte is byte `2 * n + 1`. -/
def sampleAt (bytes : List Nat) (n : Nat) : Option Int :=
  match bytes[2 * n]?, bytes[2 * n + 1]? with
  | some lo, some hi =>
    some (if lo + 256 * hi < 2 ^ 15 then ((lo + 256 * hi : Nat) : Int)
      else ((lo + 256 * hi : Nat) : Int) - 2 ^ 16)
  | _, _ => none

/-- The two bytes stored for a sample, low byte first. -/
def sampleBytes (x : Int) : List Nat :=
  [(x % 256).toNat, (Int.shiftRight x 8 % 256).toNat]

/-! ## Arithmetic and bit-level helpers -/

theorem u32_of_lt {x : Nat} (h : x < 2 ^ 32) : u32 x = x :=
  Nat.mod_eq_of_lt h

theorem shl_or_eq_add (a k b : Nat) (hb : b < 2 ^ k) :
    (a <<< k) ||| b = a * 2 ^ k + b := by
  rw [Nat.shiftLeft_eq, Nat.mul_comm a, Nat.mul_add_lt_is_or hb]

theorem or_eq_add_of_mul (a k b : Nat) (hb : b < 2 ^ k) :
    (a * 2 ^ k) ||| b = a * 2 ^ k + b := by
  rw [Nat.mul_comm a, Nat.mul_add_lt_is_or hb]

theorem xor_bit_lt_two (p b : Nat) (hp : p < 2) : p ^^^ (b &&& 1) = (p + b % 2) % 2 := by
  rw [Nat.and_one_is_mod]
  have hb : b % 2 < 2 := Nat.mod_lt _ (by decide)
  have h1 : p = 0 ∨ p = 1 := by omega
  have h2 : b % 2 = 0 ∨ b % 2 = 1 := by omega
  rcases h1 with h1 | h1 <;> rcases h2 with h2 | h2 <;> rw [h1, h2] <;> decide

theorem bitCount_succ (n x : Nat) :
    bitCount (n + 1) x = bitCount n x + (x >>> n) % 2 := by
  unfold bitCount
  rw [List.range_succ, List.filter_append, List.length_append]
  congr 1
  have h : (x >>> n) % 2 = if x.testBit n then 1 else 0 := by
    rw [Nat.testBit_to_div_mod, Nat.shiftRight_eq_div_pow]
    have : x / 2 ^ n % 2 < 2 := Nat.mod_lt _ (by decide)
    by_cases h1 : x / 2 ^ n % 2 = 1
    · simp [h1]
    · have : x / 2 ^ n % 2 = 0 := by omega
      simp [this]
  rw [h]
  by_cases hb : x.testBit n <;> simp [hb]

/-! ## Parity -/

theorem parity_fold (x : Nat) (n : Nat) :
    (List.range n).foldl parityStep (0, x) = (bitCount n x % 2, x >>> n) := by
  induction n with
  | zero => simp [bitCount]
  | succ n ih =>
    rw [List.range_succ, List.foldl_append, ih]
    simp only [List.foldl_cons, List.foldl_nil, parityStep]
    rw [xor_bit_lt_two _ _ (Nat.mod_lt _ (by decide)), bitCount_succ]
    refine Prod.ext ?_ ?_
    · simp only
      omega
    · simp only
      rw [Nat.shiftRight_add]

theorem parity_eq (x : Nat) : parity x = popCount32 x % 2 := by
  unfold parity popCount32
  rw [parity_fold]

theorem parity_lt_two (x : Nat) : parity x < 2 := by
  rw [parity_eq]
  exact Nat.mod_lt _ (by decide)

/-! ## Codeword layout -/

theorem crc_lt (x : Nat) : crc x < 2 ^ 10 := by
  unfold crc
  exact Nat.and_lt_two_pow _ (by decide)

/-- The 31-bit value `(p << 10) | crc(p)` that `encodeCodeword` builds. -/
theorem fullCRC_eq (p : Nat) (hp : p < 2 ^ 21) :
    u32 (p <<< CRC_BITS) ||| crc p = p * 2 ^ 10 + crc p := by
  have hc := crc_lt p
  have h1 : p <<< CRC_BITS = p * 2 ^ 10 := by
    rw [Nat.shiftLeft_eq]; rfl
  rw [h1, u32_of_lt (by omega), or_eq_add_of_mul _ _ _ hc]

theorem encodeCodeword_eq (p : Nat) (hp : p < 2 ^ 21) :
    encodeCodeword p = p * 2 ^ 11 + crc p * 2 + parity (p * 2 ^ 10 + crc p) := by
  have hc := crc_lt p
  unfold encodeCodeword
  simp only
  rw [fullCRC_eq p hp]
  have hpar := parity_lt_two (p * 2 ^ 10 + crc p)
  have h1 : (p * 2 ^ 10 + crc p) <<< 1 = (p * 2 ^ 10 + crc p) * 2 ^ 1 := by
    rw [Nat.shiftLeft_eq]
  rw [h1, u32_of_lt (by omega), or_eq_add_of_mul _ _ _ (by omega)]
  omega

theorem and_eq_zero_of_mul (a k b : Nat) (hb : b < 2 ^ k) :
    (a * 2 ^ k) &&& b = 0 := by
  apply Nat.eq_of_testBit_eq
  intro i
  rw [Nat.testBit_and, Nat.zero_testBit, Nat.mul_comm, Nat.testBit_mul_pow_two]
  by_cases hi : k ≤ i
  · have : b < 2 ^ i := Nat.lt_of_lt_of_le hb (Nat.pow_le_pow_right (by decide) hi)
    rw [Nat.testBit_lt_two_pow this]
    simp
  · simp [hi]

theorem bitCount_double (n f b : Nat) (hb : b < 2) :
    bitCount (n + 1) (2 * f + b) = b + bitCount n f := by
  induction n with
  | zero =>
    rw [bitCount_succ]
    simp only [bitCount, List.range_zero, List.filter_nil, List.length_nil,
      Nat.shiftRight_zero]
    omega
  | succ n ih =>
    rw [bitCount_succ, ih, bitCount_succ n f]
    have h : (2 * f + b) >>> (n + 1) = f >>> n := by
      rw [Nat.shiftRight_eq_div_pow, Nat.shiftRight_eq_div_pow, Nat.pow_succ,
        Nat.mul_comm (2 ^ n) 2, ← Nat.div_div_eq_div_mul]
      congr 1
      omega
    rw [h]
    omega

theorem bitCount_top_zero (n f : Nat) (hf : f < 2 ^ n) :
    bitCount (n + 1) f = bitCount n f := by
  rw [bitCount_succ, Nat.shiftRight_eq_div_pow, Nat.div_eq_of_lt hf]
  omega

theorem popCount32_encodeCodeword (p : Nat) (hp : p < 2 ^ 21) :
    popCount32 (encodeCodeword p) % 2 = 0 := by
  have hc := crc_lt p
  rw [encodeCodeword_eq p hp]
  have hF : p * 2 ^ 10 + crc p < 2 ^ 31 := by omega
  have hpar := parity_lt_two (p * 2 ^ 10 + crc p)
  have hsum : p * 2 ^ 11 + crc p * 2 + parity (p * 2 ^ 10 + crc p)
      = 2 * (p * 2 ^ 10 + crc p) + parity (p * 2 ^ 10 + crc p) := by omega
  rw [hsum]
  unfold popCount32
  rw [bitCount_double 31 _ _ hpar, parity_eq]
  unfold popCount32
  rw [bitCount_top_zero 31 _ hF]
  omega

/-- The fields of a codeword, read back from the sum form. -/
theorem encodeCodeword_fields (p : Nat) (hp : p < 2 ^ 21) :
    encodeCodeword p / 2 ^ 11 = p ∧ encodeCodeword p / 2 % 2 ^ 10 = crc p ∧
      encodeCodeword p % 2 = parity (p * 2 ^ 10 + crc p) := by
  have hc := crc_lt p
  have hpar := parity_lt_two (p * 2 ^ 10 + crc p)
  rw [encodeCodeword_eq p hp]
  refine ⟨?_, ?_, ?_⟩ <;> omega

theorem encodeCodeword_shiftRight (p : Nat) (hp : p < 2 ^ 21) :
    encodeCodeword p >>> 11 = p := by
  rw [Nat.shiftRight_eq_div_pow]
  exact (encodeCodeword_fields p hp).1

theorem encodeCodeword_lt (p : Nat) (hp : p < 2 ^ 21) :
    encodeCodeword p < 2 ^ 32 := by
  have hc := crc_lt p
  have hpar := parity_lt_two (p * 2 ^ 10 + crc p)
  rw [encodeCodeword_eq p hp]
  omega

/-! ## Polynomials over GF(2) -/

theorem gf2Mul_zero (b : Nat) : gf2Mul 0 b = 0 := by
  rw [gf2Mul]; simp

theorem gf2Mul_unfold (a b : Nat) :
    gf2Mul a b = (if a % 2 = 1 then b else 0) ^^^ 2 * gf2Mul (a / 2) b := by
  by_cases h : a = 0
  · subst h
    simp [gf2Mul_zero]
  · rw [gf2Mul]
    simp [h]

theorem two_mul_xor (x y : Nat) : 2 * (x ^^^ y) = 2 * x ^^^ 2 * y := by
  apply Nat.eq_of_testBit_eq
  intro i
  cases i with
  | zero => simp
  | succ i =>
    rw [Nat.testBit_xor, Nat.testBit_succ, Nat.testBit_succ, Nat.testBit_succ]
    simp

theorem xor_cancel_left (a b : Nat) : a ^^^ (a ^^^ b) = b := by
  rw [← Nat.xor_assoc, Nat.xor_self, Nat.zero_xor]

theorem gf2Mul_xor (b : Nat) : ∀ a c : Nat,
    gf2Mul (a ^^^ c) b = gf2Mul a b ^^^ gf2Mul c b := by
  intro a
  induction a using Nat.strong_induction_on with
  | _ a ih =>
    intro c
    by_cases ha : a = 0
    · subst ha
      simp [gf2Mul_zero]
    · rw [gf2Mul_unfold (a ^^^ c), gf2Mul_unfold a, gf2Mul_unfold c,
        Nat.xor_div_two, ih (a / 2) (by omega) (c / 2), two_mul_xor]
      have hpar : (if (a ^^^ c) % 2 = 1 then b else 0)
          = (if a % 2 = 1 then b else 0) ^^^ (if c % 2 = 1 then b else 0) := by
        have hx := @Nat.xor_mod_two_eq_one a c
        by_cases h1 : a % 2 = 1 <;> by_cases h2 : c % 2 = 1 <;>
          simp [h1, h2] at hx ⊢ <;> simp [hx]
      rw [hpar]
      ac_rfl

theorem gf2Mul_two_pow (j b : Nat) : gf2Mul (2 ^ j) b = b * 2 ^ j := by
  induction j with
  | zero =>
    rw [gf2Mul_unfold]
    simp [gf2Mul_zero]
  | succ j ih =>
    rw [gf2Mul_unfold]
    have h1 : 2 ^ (j + 1) % 2 = 0 := by
      rw [Nat.pow_succ]; omega
    have h2 : 2 ^ (j + 1) / 2 = 2 ^ j := by
      rw [Nat.pow_succ]; omega
    rw [h1, h2, ih, Nat.pow_succ]
    simp only [Nat.zero_ne_one, if_false, Nat.zero_xor]
    ring

theorem le_xor_of_lt_of_le {c d n : Nat} (hc : c < 2 ^ n) (hd : 2 ^ n ≤ d) :
    2 ^ n ≤ c ^^^ d := by
  obtain ⟨i, hi, hbit⟩ := Nat.ge_two_pow_implies_high_bit_true hd
  have hci : c.testBit i = false :=
    Nat.testBit_lt_two_pow (Nat.lt_of_lt_of_le hc (Nat.pow_le_pow_right (by decide) hi))
  have : (c ^^^ d).testBit i = true := by
    rw [Nat.testBit_xor, hci, hbit]; rfl
  exact Nat.le_trans (Nat.pow_le_pow_right (by decide) hi) (Nat.testBit_implies_ge this)

/-- A non-zero multiple of a polynomial of degree `k` has degree at least
`k`. -/
theorem le_gf2Mul (k b : Nat) (hb1 : 2 ^ k ≤ b) (hb2 : b < 2 ^ (k + 1)) :
    ∀ a : Nat, a ≠ 0 → 2 ^ k ≤ gf2Mul a b := by
  intro a
  induction a using Nat.strong_induction_on with
  | _ a ih =>
    intro ha
    rw [gf2Mul_unfold]
    by_cases h2 : a / 2 = 0
    · have h1 : a % 2 = 1 := by omega
      rw [h2, gf2Mul_zero, h1]
      simpa using hb1
    · have hy := ih (a / 2) (by omega) h2
      have hy2 : 2 ^ (k + 1) ≤ 2 * gf2Mul (a / 2) b := by
        rw [Nat.pow_succ]; omega
      have hc : (if a % 2 = 1 then b else 0) < 2 ^ (k + 1) := by
        split
        · exact hb2
        · exact Nat.pos_pow_of_pos _ (by decide)
      have := le_xor_of_lt_of_le hc hy2
      have hk : 2 ^ k ≤ 2 ^ (k + 1) := Nat.pow_le_pow_right (by decide) (by omega)
      omega

theorem xor_lt_of_top {a b j : Nat} (ha1 : 2 ^ j ≤ a) (ha2 : a < 2 ^ (j + 1))
    (hb1 : 2 ^ j ≤ b) (hb2 : b < 2 ^ (j + 1)) : a ^^^ b < 2 ^ j := by
  apply Nat.lt_pow_two_of_testBit
  intro i hi
  rw [Nat.testBit_xor]
  by_cases hij : i = j
  · subst hij
    have top : ∀ x : Nat, 2 ^ i ≤ x → x < 2 ^ (i + 1) → x.testBit i = true := by
      intro x h1 h2
      rw [Nat.testBit_to_div_mod]
      have : x / 2 ^ i = 1 := by
        apply Nat.div_eq_of_lt_le
        · simpa using h1
        · rw [Nat.pow_succ] at h2; omega
      simp [this]
    rw [top a ha1 ha2, top b hb1 hb2]
    rfl
  · have hlt : j + 1 ≤ i := by omega
    have hp : 2 ^ (j + 1) ≤ 2 ^ i := Nat.pow_le_pow_right (by decide) hlt
    rw [Nat.testBit_lt_two_pow (Nat.lt_of_lt_of_le ha2 hp),
      Nat.testBit_lt_two_pow (Nat.lt_of_lt_of_le hb2 hp)]
    rfl

theorem xor_eq_add_of_mul (a k b : Nat) (hb : b < 2 ^ k) :
    (a * 2 ^ k) ^^^ b = a * 2 ^ k + b := by
  rw [← or_eq_add_of_mul a k b hb]
  apply Nat.eq_of_testBit_eq
  intro i
  rw [Nat.testBit_xor, Nat.testBit_or, Nat.mul_comm, Nat.testBit_mul_pow_two]
  by_cases hi : k ≤ i
  · have : b < 2 ^ i := Nat.lt_of_lt_of_le hb (Nat.pow_le_pow_right (by decide) hi)
    rw [Nat.testBit_lt_two_pow this]
    simp
  · simp [hi]

/-! ## The CRC loop -/

theorem generator_shift_bounds (e : Nat) :
    2 ^ (e + 10) ≤ CRC_GENERATOR * 2 ^ e ∧ CRC_GENERATOR * 2 ^ e < 2 ^ (e + 10 + 1) := by
  have hpos : 0 < 2 ^ e := Nat.pos_pow_of_pos _ (by decide)
  have h1 : 2 ^ (e + 10) = 2 ^ 10 * 2 ^ e := by rw [Nat.pow_add, Nat.mul_comm]
  have h2 : 2 ^ (e + 10 + 1) = 2 ^ 11 * 2 ^ e := by
    rw [Nat.add_assoc, Nat.pow_add, Nat.mul_comm]
  rw [h1, h2]
  constructor
  · exact Nat.mul_le_mul_right _ (by decide)
  · exact Nat.mul_lt_mul_of_pos_right (by decide) hpos

theorem top_bit_test (m j : Nat) (hm : m < 2 ^ (j + 1)) :
    ((m >>> j) &&& 1 ≠ 0) ↔ 2 ^ j ≤ m := by
  have hpos : 0 < 2 ^ j := Nat.pos_pow_of_pos _ (by decide)
  rw [Nat.and_one_is_mod, Nat.shiftRight_eq_div_pow]
  have hq : m / 2 ^ j < 2 := by
    rw [Nat.div_lt_iff_lt_mul hpos, Nat.mul_comm, ← Nat.pow_succ]
    exact hm
  have hle : 2 ^ j ≤ m ↔ 0 < m / 2 ^ j := by
    constructor
    · intro h; exact Nat.div_pos h hpos
    · intro h
      by_contra hlt
      rw [Nat.div_eq_of_lt (by omega)] at h
      omega
  rw [hle]
  generalize m / 2 ^ j = t at hq
  omega

/-- The invariant of the loop of `crc`: after `k` columns the denominator has
been shifted `k` times, the `k` top bits of the 31-bit dividend are cleared,
and what was subtracted from the dividend is a multiple of the generator. -/
theorem crc_fold (p : Nat) (k : Nat) (hk : k ≤ 21) :
    ((List.range k).foldl crcStep (p * 2 ^ 10, CRC_GENERATOR * 2 ^ 20)).2
        = CRC_GENERATOR * 2 ^ 20 / 2 ^ k ∧
      (p < 2 ^ 21 →
        ((List.range k).foldl crcStep (p * 2 ^ 10, CRC_GENERATOR * 2 ^ 20)).1
          < 2 ^ (31 - k)) ∧
      ∃ q, ((List.range k).foldl crcStep (p * 2 ^ 10, CRC_GENERATOR * 2 ^ 20)).1
        = (p * 2 ^ 10) ^^^ gf2Mul q CRC_GENERATOR := by
  induction k with
  | zero =>
    refine ⟨by simp, ?_, ⟨0, by simp [gf2Mul_zero]⟩⟩
    intro hp
    simp only [List.range_zero, List.foldl_nil]
    omega
  | succ k ih =>
    obtain ⟨ihd, ihm, q, ihq⟩ := ih (by omega)
    rw [List.range_succ, List.foldl_append]
    simp only [List.foldl_cons, List.foldl_nil]
    generalize (List.range k).foldl crcStep (p * 2 ^ 10, CRC_GENERATOR * 2 ^ 20) = s
      at ihd ihm ihq
    obtain ⟨m, d⟩ := s
    simp only at ihd ihm ihq
    have he : 20 - k + k = 20 := by omega
    have hd : d = CRC_GENERATOR * 2 ^ (20 - k) := by
      rw [ihd]
      have : (2 : Nat) ^ 20 = 2 ^ (20 - k) * 2 ^ k := by rw [← Nat.pow_add, he]
      rw [this, ← Nat.mul_assoc, Nat.mul_div_cancel _ (Nat.pos_pow_of_pos _ (by decide))]
    have hj1 : 31 - k = (20 - k + 10) + 1 := by omega
    have hj2 : 31 - (k + 1) = 20 - k + 10 := by omega
    have hj3 : 30 - k = 20 - k + 10 := by omega
    obtain ⟨hg1, hg2⟩ := generator_shift_bounds (20 - k)
    refine ⟨?_, ?_, ?_⟩
    · simp only [crcStep]
      rw [ihd, Nat.shiftRight_eq_div_pow, Nat.div_div_eq_div_mul, ← Nat.pow_add]
    · intro hp
      have hm := ihm hp
      rw [hj1] at hm
      rw [hj2]
      simp only [crcStep]
      rw [hj3]
      by_cases hb : (m >>> (20 - k + 10)) &&& 1 ≠ 0
      · rw [if_pos hb, hd]
        exact xor_lt_of_top ((top_bit_test m _ hm).1 hb) hm hg1 hg2
      · rw [if_neg hb]
        have := (top_bit_test m _ hm).not.1 hb
        omega
    · simp only [crcStep]
      by_cases hb : (m >>> (30 - k)) &&& 1 ≠ 0
      · rw [if_pos hb]
        refine ⟨q ^^^ 2 ^ (20 - k), ?_⟩
        rw [gf2Mul_xor, gf2Mul_two_pow, ihq, hd, Nat.xor_assoc]
      · rw [if_neg hb]
        exact ⟨q, ihq⟩

theorem crc_start (p : Nat) (hp : p < 2 ^ 21) :
    crc p = ((List.range 21).foldl crcStep (p * 2 ^ 10, CRC_GENERATOR * 2 ^ 20)).1 := by
  have h1 : u32 (CRC_GENERATOR <<< 20) = CRC_GENERATOR * 2 ^ 20 := by decide
  have h2 : u32 (p <<< CRC_BITS) = p * 2 ^ 10 := by
    have : p <<< CRC_BITS = p * 2 ^ 10 := by rw [Nat.shiftLeft_eq]; rfl
    rw [this, u32_of_lt (by omega)]
  obtain ⟨_, hlt, _⟩ := crc_fold p 21 (by omega)
  have hlt := hlt hp
  unfold crc
  simp only
  rw [h1, h2]
  have h3 : (0x3FF : Nat) = 2 ^ 10 - 1 := by decide
  rw [h3, Nat.and_pow_two_sub_one_eq_mod, Nat.mod_eq_of_lt hlt]

/-- The word `(p << 10) ^ crc(p)` is a multiple of the generator. -/
theorem crc_multiple (p : Nat) (hp : p < 2 ^ 21) :
    ∃ q, (p * 2 ^ 10) ^^^ crc p = gf2Mul q CRC_GENERATOR := by
  obtain ⟨_, _, q, hq⟩ := crc_fold p 21 (by omega)
  refine ⟨q, ?_⟩
  rw [crc_start p hp, hq, xor_cancel_left]

/-- The remainder is unique: a word below `2 ^ 10` that differs from the
dividend by a multiple of the generator is `crc p`. -/
theorem crc_unique (p : Nat) (hp : p < 2 ^ 21) (r : Nat) (hr : r < 2 ^ 10)
    (q : Nat) (h : (p * 2 ^ 10) ^^^ r = gf2Mul q CRC_GENERATOR) : r = crc p := by
  obtain ⟨q0, h0⟩ := crc_multiple p hp
  have hx : r ^^^ crc p = gf2Mul (q ^^^ q0) CRC_GENERATOR := by
    rw [gf2Mul_xor, ← h, ← h0]
    have : (p * 2 ^ 10 ^^^ r) ^^^ (p * 2 ^ 10 ^^^ crc p)
        = (p * 2 ^ 10 ^^^ p * 2 ^ 10) ^^^ (r ^^^ crc p) := by ac_rfl
    rw [this, Nat.xor_self, Nat.zero_xor]
  have hlt : r ^^^ crc p < 2 ^ 10 := Nat.xor_lt_two_pow hr (crc_lt p)
  have hq : q ^^^ q0 = 0 := by
    by_contra hne
    have := le_gf2Mul 10 CRC_GENERATOR (by decide) (by decide) _ hne
    omega
  rw [hq, gf2Mul_zero] at hx
  have : r ^^^ (r ^^^ crc p) = r ^^^ 0 := by rw [hx]
  rw [xor_cancel_left, Nat.xor_zero] at this
  exact this.symm

/-! ## The codeword encoder: main results -/

/-- C7: for every payload `p < 2 ^ 21`, `crc p < 2 ^ 10` and `crc p` is the
remainder of the GF(2) polynomial `p(x) * x ^ 10` on division by the
generator `g(x) = x^10 + x^9 + x^8 + x^6 + x^5 + x^3 + 1`: the dividend and
`crc p` differ by a multiple of `g`, and `crc p` is the only word below
`2 ^ 10` (degree below 10) that does.  Equivalently the 31-bit word
`(p << 10) | crc p` is a multiple of `g`. -/
theorem crc_is_remainder (p : Nat) (hp : p < 2 ^ 21) :
    CRC_GENERATOR = 2 ^ 10 + 2 ^ 9 + 2 ^ 8 + 2 ^ 6 + 2 ^ 5 + 2 ^ 3 + 1 ∧
      crc p < 2 ^ 10 ∧
      (∃ q, (p <<< 10) ^^^ crc p = gf2Mul q CRC_GENERATOR) ∧
      (∀ r q, r < 2 ^ 10 → (p <<< 10) ^^^ r = gf2Mul q CRC_GENERATOR → r = crc p) ∧
      (∃ q, (p <<< 10) ||| crc p = gf2Mul q CRC_GENERATOR) := by
  have hs : p <<< 10 = p * 2 ^ 10 := Nat.shiftLeft_eq _ _
  rw [hs]
  refine ⟨by decide, crc_lt p, crc_multiple p hp, ?_, ?_⟩
  · intro r q hr h
    exact crc_unique p hp r hr q h
  · obtain ⟨q, hq⟩ := crc_multiple p hp
    refine ⟨q, ?_⟩
    rw [or_eq_add_of_mul _ _ _ (crc_lt p), ← xor_eq_add_of_mul _ _ _ (crc_lt p), hq]

theorem crc_is_remainder_witness :
    (1 : Nat) < 2 ^ 21 ∧ crc 1 < 2 ^ 10 ∧
      (∃ q, (1 <<< 10) ||| crc 1 = gf2Mul q CRC_GENERATOR) :=
  ⟨by decide, (crc_is_remainder 1 (by decide)).2.1,
    (crc_is_remainder 1 (by decide)).2.2.2.2⟩

/-- C8: for every payload `p < 2 ^ 21` the 32-bit word `encodeCodeword p` has
an even number of set bits, and for every 32-bit `x` (all of whose set bits
are among the 32 that `popCount32` counts), `parity x` is 1 if `x` has an odd
number of set bits and 0 otherwise. -/
theorem parity_correct (p x : Nat) (hp : p < 2 ^ 21) (hx : x < 2 ^ 32) :
    encodeCodeword p < 2 ^ 32 ∧ popCount32 (encodeCodeword p) % 2 = 0 ∧
      (∀ i, x.testBit i = true → i < 32) ∧
      parity x = (if popCount32 x % 2 = 1 then 1 else 0) := by
  refine ⟨encodeCodeword_lt p hp, popCount32_encodeCodeword p hp, ?_, ?_⟩
  · intro i hi
    by_contra hge
    have : x < 2 ^ i :=
      Nat.lt_of_lt_of_le hx (Nat.pow_le_pow_right (by decide) (by omega))
    rw [Nat.testBit_lt_two_pow this] at hi
    exact Bool.false_ne_true hi
  rw [parity_eq]
  have : popCount32 x % 2 < 2 := Nat.mod_lt _ (by decide)
  split <;> omega

theorem parity_correct_witness :
    (5 : Nat) < 2 ^ 21 ∧ (7 : Nat) < 2 ^ 32 ∧
      popCount32 (encodeCodeword 5) % 2 = 0 ∧
      parity 7 = (if popCount32 7 % 2 = 1 then 1 else 0) :=
  ⟨by decide, by decide, (parity_correct 5 7 (by decide) (by decide)).2.1,
    (parity_correct 5 7 (by decide) (by decide)).2.2.2⟩

/-- C9: for every payload `p < 2 ^ 21`,
`encodeCodeword p = (p << 11) | (crc p << 1) | parity ((p << 10) | crc p)`;
the three fields are disjoint, so each is read back from the codeword:
`encodeCodeword p >> 11 = p`, `(encodeCodeword p >> 1) & 0x3FF = crc p` and
`encodeCodeword p & 1 = parity ((p << 10) | crc p)`; and `encodeCodeword` is
injective on 21-bit payloads. -/
theorem encodeCodeword_layout (p : Nat) (hp : p < 2 ^ 21) :
    encodeCodeword p
        = (p <<< 11) ||| (crc p <<< 1) ||| parity ((p <<< 10) ||| crc p) ∧
      (p <<< 11) &&& (crc p <<< 1) = 0 ∧
      ((p <<< 11) ||| (crc p <<< 1)) &&& parity ((p <<< 10) ||| crc p) = 0 ∧
      encodeCodeword p >>> 11 = p ∧
      (encodeCodeword p >>> 1) &&& 0x3FF = crc p ∧
      encodeCodeword p &&& 1 = parity ((p <<< 10) ||| crc p) ∧
      ∀ q, q < 2 ^ 21 → encodeCodeword q = encodeCodeword p → q = p := by
  have hc := crc_lt p
  have h10 : (p <<< 10) ||| crc p = p * 2 ^ 10 + crc p := shl_or_eq_add _ _ _ hc
  have hpar := parity_lt_two (p * 2 ^ 10 + crc p)
  have h11 : p <<< 11 = p * 2 ^ 11 := Nat.shiftLeft_eq _ _
  have h1 : crc p <<< 1 = crc p * 2 := by rw [Nat.shiftLeft_eq]
  have hor : (p * 2 ^ 11) ||| (crc p * 2) = (p * 2 ^ 10 + crc p) * 2 ^ 1 := by
    rw [or_eq_add_of_mul _ _ _ (by omega)]; omega
  obtain ⟨hf1, hf2, hf3⟩ := encodeCodeword_fields p hp
  rw [h10, h11, h1]
  refine ⟨?_, ?_, ?_, encodeCodeword_shiftRight p hp, ?_, ?_, ?_⟩
  · rw [hor, or_eq_add_of_mul _ _ _ (by omega), encodeCodeword_eq p hp]
    omega
  · exact and_eq_zero_of_mul _ _ _ (by omega)
  · rw [hor]
    exact and_eq_zero_of_mul _ _ _ (by omega)
  · have h3 : (0x3FF : Nat) = 2 ^ 10 - 1 := by decide
    rw [h3, Nat.and_pow_two_sub_one_eq_mod, Nat.shiftRight_eq_div_pow]
    exact hf2
  · rw [Nat.and_one_is_mod]
    exact hf3
  · intro q hq h
    rw [← encodeCodeword_shiftRight q hq, h, encodeCodeword_shiftRight p hp]

theorem encodeCodeword_layout_witness :
    (5 : Nat) < 2 ^ 21 ∧ encodeCodeword 5 >>> 11 = 5 ∧
      (encodeCodeword 5 >>> 1) &&& 0x3FF = crc 5 :=
  ⟨by decide, (encodeCodeword_layout 5 (by decide)).2.2.2.1,
    (encodeCodeword_layout 5 (by decide)).2.2.2.2.1⟩

/-! ## Text bits of a word -/

theorem accBits_length (n w : Nat) : (accBits n w).length = n := by
  induction n generalizing w with
  | zero => rfl
  | succ n ih => simp [accBits, ih]

theorem accBits_eq_map (n x : Nat) :
    accBits n x = (List.range n).map (fun j => x.testBit (n - 1 - j)) := by
  induction n generalizing x with
  | zero => rfl
  | succ n ih =>
    rw [accBits, ih, List.range_succ, List.map_append]
    congr 1
    · apply List.map_congr_left
      intro j hj
      have hj := List.mem_range.1 hj
      rw [Nat.testBit_div_two]
      congr 1
      omega
    · simp

theorem textBits_eq_accBits (w : Nat) : textBits w = accBits 20 (w >>> 11) := by
  rw [accBits_eq_map]
  unfold textBits
  apply List.map_congr_left
  intro j hj
  have hj := List.mem_range.1 hj
  rw [Nat.testBit_shiftRight]
  congr 1
  omega

theorem accBits_mod (n x : Nat) : accBits n (x % 2 ^ n) = accBits n x := by
  rw [accBits_eq_map, accBits_eq_map]
  apply List.map_congr_left
  intro j hj
  have hj := List.mem_range.1 hj
  rw [Nat.testBit_mod_two_pow]
  have : n - 1 - j < n := by omega
  simp [this]

theorem accBits_push (n w : Nat) (b : Bool) :
    accBits (n + 1) (2 * w + (if b then 1 else 0)) = accBits n w ++ [b] := by
  rw [accBits]
  have h1 : (2 * w + (if b then 1 else 0)) / 2 = w := by
    cases b
    · simp
    · simp; omega
  have h2 : (2 * w + (if b then 1 else 0)).testBit 0 = b := by
    cases b
    · simp [Nat.testBit_zero]
    · simp [Nat.testBit_zero]; omega
  rw [h1, h2]

theorem accBits_pad (n x k : Nat) :
    accBits (n + k) (x * 2 ^ k) = accBits n x ++ List.replicate k false := by
  induction k with
  | zero => simp
  | succ k ih =>
    have h1 : x * 2 ^ (k + 1) / 2 = x * 2 ^ k := by
      rw [Nat.pow_succ, ← Nat.mul_assoc, Nat.mul_div_cancel _ (by decide)]
    have h2 : (x * 2 ^ (k + 1)).testBit 0 = false := by
      rw [Nat.testBit_zero, Nat.pow_succ, ← Nat.mul_assoc, Nat.mul_mod_left]
      rfl
    rw [← Nat.add_assoc, accBits, h1, h2, ih, List.replicate_succ',
      List.append_assoc]

theorem flag_or (x : Nat) (hx : x < 2 ^ 20) : x ||| FLAG_MESSAGE = 2 ^ 20 + x := by
  have : FLAG_MESSAGE = 1 * 2 ^ 20 := by decide
  rw [Nat.or_comm, this, or_eq_add_of_mul _ _ _ hx]
  omega

/-- A text codeword carries its 20 payload bits in bits 30 to 11, and is not
the SYNC word. -/
theorem textWord_spec (x : Nat) (hx : x < 2 ^ 20) :
    textBits (encodeCodeword (x ||| FLAG_MESSAGE)) = accBits 20 x ∧
      2 ^ 31 ≤ encodeCodeword (x ||| FLAG_MESSAGE) ∧
      encodeCodeword (x ||| FLAG_MESSAGE) ≠ SYNC := by
  have hlt : 2 ^ 20 + x < 2 ^ 21 := by omega
  have hge : 2 ^ 31 ≤ encodeCodeword (x ||| FLAG_MESSAGE) := by
    rw [flag_or x hx, encodeCodeword_eq _ hlt]
    omega
  refine ⟨?_, hge, ?_⟩
  · rw [textBits_eq_accBits, flag_or x hx, encodeCodeword_shiftRight _ hlt,
      ← accBits_mod]
    congr 1
    omega
  · intro h
    rw [h] at hge
    exact absurd hge (by decide)

theorem decodeStream_append (xs ys : List Nat) :
    decodeStream (xs ++ ys) = decodeStream xs ++ decodeStream ys := by
  simp [decodeStream]

theorem decodeStream_sync : decodeStream [SYNC] = [] := by
  simp [decodeStream]

theorem decodeStream_textWord (x : Nat) (hx : x < 2 ^ 20) :
    decodeStream [encodeCodeword (x ||| FLAG_MESSAGE)] = accBits 20 x := by
  have h := textWord_spec x hx
  simp [decodeStream, h.2.2, h.1]

/-! ## The loops of `encodeASCII` -/

/-- What lines 158-172 (and 181-193) do to the output and the counters: a text
word is stored, then a SYNC word when the batch is full. -/
theorem advancePosition_spec (p t : Nat) (s : EncState) (w : Nat) (cw nb : Nat)
    (hpos : s.wordPosition = (p + t) % 16)
    (hlen : s.out.length = t + (p + t) / 16)
    (hcnt : s.numWordsWritten = s.out.length % 2 ^ 32) :
    let r := advancePosition
      { s with
        out := s.out ++ [w]
        currentWord := cw
        currentNumBits := nb
        numWordsWritten := u32 (s.numWordsWritten + 1) }
    r.wordPosition = (p + (t + 1)) % 16 ∧
      r.out.length = (t + 1) + (p + (t + 1)) / 16 ∧
      r.numWordsWritten = r.out.length % 2 ^ 32 ∧
      r.currentWord = cw ∧ r.currentNumBits = nb ∧
      (r.out = s.out ++ [w] ∨ r.out = s.out ++ [w] ++ [SYNC]) := by
  intro r
  have hwp : s.wordPosition < 16 := by rw [hpos]; exact Nat.mod_lt _ (by decide)
  have hu : u32 (s.wordPosition + 1) = s.wordPosition + 1 := u32_of_lt (by omega)
  by_cases hfull : s.wordPosition + 1 = 16
  · have hr : r = { s with
        out := s.out ++ [w] ++ [SYNC]
        currentWord := cw
        currentNumBits := nb
        numWordsWritten := u32 (u32 (s.numWordsWritten + 1) + 1)
        wordPosition := 0 } := by
      show advancePosition _ = _
      unfold advancePosition
      rw [hu, hfull]
      simp only [BATCH_SIZE, if_true]
    rw [hr]
    simp only [List.length_append, List.length_singleton, u32, true_and]
    refine ⟨by omega, by omega, by omega, Or.inr trivial⟩
  · have hr : r = { s with
        out := s.out ++ [w]
        currentWord := cw
        currentNumBits := nb
        numWordsWritten := u32 (s.numWordsWritten + 1)
        wordPosition := s.wordPosition + 1 } := by
      show advancePosition _ = _
      unfold advancePosition
      rw [hu]
      simp only [hfull, BATCH_SIZE, if_false]
    rw [hr]
    simp only [List.length_append, List.length_singleton, u32, true_and]
    refine ⟨by omega, by omega, by omega, Or.inl trivial⟩

theorem valid_append {l : List Nat} {x : Nat} (hx : x < 2 ^ 20)
    (hl : ∀ w ∈ l, w = SYNC ∨ ∃ x, x < 2 ^ 20 ∧ w = encodeCodeword (x ||| FLAG_MESSAGE))
    {l2 : List Nat}
    (h : l2 = l ++ [encodeCodeword (x ||| FLAG_MESSAGE)] ∨
      l2 = l ++ [encodeCodeword (x ||| FLAG_MESSAGE)] ++ [SYNC]) :
    ∀ w ∈ l2, w = SYNC ∨ ∃ x, x < 2 ^ 20 ∧ w = encodeCodeword (x ||| FLAG_MESSAGE) := by
  intro w hw
  rcases h with h | h <;> rw [h] at hw <;>
    simp only [List.mem_append, List.mem_singleton] at hw
  · rcases hw with hw | hw
    · exact hl w hw
    · exact Or.inr ⟨x, hx, hw⟩
  · rcases hw with (hw | hw) | hw
    · exact hl w hw
    · exact Or.inr ⟨x, hx, hw⟩
    · exact Or.inl hw

theorem stream_append {l : List Nat} {x : Nat} (hx : x < 2 ^ 20) {l2 : List Nat}
    (h : l2 = l ++ [encodeCodeword (x ||| FLAG_MESSAGE)] ∨
      l2 = l ++ [encodeCodeword (x ||| FLAG_MESSAGE)] ++ [SYNC]) :
    decodeStream l2 = decodeStream l ++ accBits 20 x := by
  rcases h with h | h <;> rw [h]
  · rw [decodeStream_append, decodeStream_textWord x hx]
  · rw [decodeStream_append, decodeStream_append, decodeStream_textWord x hx,
      decodeStream_sync, List.append_nil]

theorem shifted_bit (c i : Nat) :
    (c >>> i) &&& 1 = if c.testBit i then 1 else 0 := by
  rw [Nat.and_one_is_mod, Nat.shiftRight_eq_div_pow, Nat.testBit_to_div_mod]
  by_cases h1 : c / 2 ^ i % 2 = 1
  · simp [h1]
  · have : c / 2 ^ i % 2 = 0 := by omega
    simp [this]

/-- The invariant is kept by the body of the inner loop, which consumes bit
`i` of the character `c`. -/
theorem bitStep_inv {p : Nat} {bs : List Bool} {s : EncState} (c i : Nat)
    (h : EncInv p bs s) : EncInv p (bs ++ [c.testBit i]) (bitStep c s i) := by
  obtain ⟨hnb, hw, hpos, hlen, hcnt, hval, hstr⟩ := h
  have hb : bs.length % 20 < 20 := Nat.mod_lt _ (by decide)
  have hpw : 2 ^ (bs.length % 20) ≤ 2 ^ 19 :=
    Nat.pow_le_pow_right (by decide) (by omega)
  have hbl : (if c.testBit i then 1 else 0) < 2 := by split <;> decide
  have hcw : u32 (s.currentWord <<< 1) ||| ((c >>> i) &&& 1)
      = 2 * s.currentWord + (if c.testBit i then 1 else 0) := by
    rw [shifted_bit, Nat.shiftLeft_eq, u32_of_lt (by omega),
      or_eq_add_of_mul s.currentWord 1 _ hbl]
    omega
  have hcwlt : 2 * s.currentWord + (if c.testBit i then 1 else 0)
      < 2 ^ (bs.length % 20 + 1) := by
    rw [Nat.pow_succ]; omega
  have hnb' : u32 (s.currentNumBits + 1) = bs.length % 20 + 1 := by
    rw [hnb, u32_of_lt (by omega)]
  have hlen' : (bs ++ [c.testBit i]).length = bs.length + 1 := by simp
  have hacc := accBits_push (bs.length % 20) s.currentWord (c.testBit i)
  unfold bitStep
  simp only
  rw [hcw, hnb']
  by_cases hfull : bs.length % 20 + 1 = 20
  · rw [if_pos (by rw [hfull]; rfl)]
    have hx : 2 * s.currentWord + (if c.testBit i then 1 else 0) < 2 ^ 20 := by
      rw [hfull] at hcwlt; exact hcwlt
    obtain ⟨r1, r2, r3, r4, r5, r6⟩ := advancePosition_spec p (bs.length / 20) s
      (encodeCodeword ((2 * s.currentWord + (if c.testBit i then 1 else 0))
        ||| FLAG_MESSAGE)) 0 0 hpos hlen hcnt
    have hq : (bs.length + 1) / 20 = bs.length / 20 + 1 := by omega
    have hm : (bs.length + 1) % 20 = 0 := by omega
    constructor
    · rw [r5, hlen', hm]
    · rw [r4, hlen', hm]; decide
    · rw [r1, hlen', hq]
    · rw [r2, hlen', hq]
    · exact r3
    · exact valid_append hx hval r6
    · rw [hfull] at hacc
      rw [r4, r5, stream_append hx r6, ← hstr, hnb, hacc]
      simp [accBits]
  · rw [if_neg (by intro hc; exact hfull hc)]
    have hq : (bs.length + 1) / 20 = bs.length / 20 := by omega
    have hm : (bs.length + 1) % 20 = bs.length % 20 + 1 := by omega
    constructor
    · simp only [hlen', hm]
    · simp only [hlen', hm]; exact hcwlt
    · simp only [hlen', hq]; exact hpos
    · simp only [hlen', hq]; exact hlen
    · exact hcnt
    · exact hval
    · simp only
      rw [hacc, ← List.append_assoc, ← hnb, hstr]

theorem initState_inv (p : Nat) (hp : p < 16) : EncInv p [] (initState p) := by
  constructor <;> simp [initState, decodeStream, accBits]
  all_goals omega

theorem charStep_inv {p : Nat} {bs : List Bool} {s : EncState} (ch : Byte)
    (h : EncInv p bs s) :
    EncInv p (bs ++ (List.range 7).map (fun i => ch.val.testBit i)) (charStep s ch) := by
  have key : ∀ k, EncInv p (bs ++ (List.range k).map (fun i => ch.val.testBit i))
      ((List.range k).foldl (bitStep ch.val) s) := by
    intro k
    induction k with
    | zero => simpa using h
    | succ k ih =>
      rw [List.range_succ, List.foldl_append, List.map_append, ← List.append_assoc]
      exact bitStep_inv ch.val k ih
  exact key 7

theorem foldl_charStep_inv {p : Nat} (m : List Byte) :
    ∀ {bs : List Bool} {s : EncState}, EncInv p bs s →
      EncInv p (bs ++ msgBits m) (m.foldl charStep s) := by
  induction m with
  | nil => intro bs s h; simpa [msgBits] using h
  | cons ch rest ih =>
    intro bs s h
    have := ih (charStep_inv ch h)
    rw [List.append_assoc] at this
    simpa [msgBits] using this

/-- The bytes of a C string: those before the first NUL. -/
theorem encodeLoop_eq (m : List Byte) : ∀ s : EncState,
    encodeLoop m s = (m.takeWhile (fun ch => ch ≠ 0)).foldl charStep s := by
  induction m with
  | nil => intro s; rfl
  | cons ch rest ih =>
    intro s
    by_cases h : ch = 0
    · simp [encodeLoop, h]
    · simp [encodeLoop, h, List.takeWhile_cons, ih]

theorem takeWhile_nul_free (m : List Byte) (h : ∀ ch ∈ m, ch ≠ 0) :
    m.takeWhile (fun ch => ch ≠ 0) = m := by
  rw [List.takeWhile_eq_self_iff]
  intro ch hch
  simpa using h ch hch

theorem msgBits_length (m : List Byte) : (msgBits m).length = 7 * m.length := by
  induction m with
  | nil => rfl
  | cons ch rest ih =>
    simp only [msgBits, List.flatMap_cons, List.length_append, List.length_map,
      List.length_range, List.length_cons] at ih ⊢
    omega

theorem accBits_pad20 (r x : Nat) (hr : r ≤ 20) :
    accBits 20 (x * 2 ^ (20 - r)) = accBits r x ++ List.replicate (20 - r) false := by
  have h := accBits_pad r x (20 - r)
  have e : r + (20 - r) = 20 := by omega
  rw [e] at h
  exact h

theorem shift_pad_lt (r x : Nat) (hr : r ≤ 20) (hx : x < 2 ^ r) :
    x * 2 ^ (20 - r) < 2 ^ 20 := by
  have h1 : x * 2 ^ (20 - r) < 2 ^ r * 2 ^ (20 - r) :=
    Nat.mul_lt_mul_of_pos_right hx (Nat.pos_pow_of_pos _ (by decide))
  have e : r + (20 - r) = 20 := by omega
  rw [← Nat.pow_add, e] at h1
  exact h1

/-- Lines 178-194: the last, partly filled word is padded with zero bits and
stored, under the same bookkeeping. -/
theorem flushRemainder_spec (p t r : Nat) (hr : r < 20) (s : EncState)
    (bs : List Bool) (hnb : s.currentNumBits = r) (hw : s.currentWord < 2 ^ r)
    (hpos : s.wordPosition = (p + t) % 16)
    (hlen : s.out.length = t + (p + t) / 16)
    (hcnt : s.numWordsWritten = s.out.length % 2 ^ 32)
    (hval : ∀ w ∈ s.out,
      w = SYNC ∨ ∃ x, x < 2 ^ 20 ∧ w = encodeCodeword (x ||| FLAG_MESSAGE))
    (hstr : decodeStream s.out ++ accBits r s.currentWord = bs) :
    (flushRemainder s).out.length
        = (if r = 0 then t else t + 1) + (p + (if r = 0 then t else t + 1)) / 16 ∧
      (flushRemainder s).numWordsWritten = (flushRemainder s).out.length % 2 ^ 32 ∧
      (∀ w ∈ (flushRemainder s).out,
        w = SYNC ∨ ∃ x, x < 2 ^ 20 ∧ w = encodeCodeword (x ||| FLAG_MESSAGE)) ∧
      decodeStream (flushRemainder s).out
        = bs ++ List.replicate ((20 - r) % 20) false := by
  unfold flushRemainder
  by_cases hz : r = 0
  · subst hz
    rw [if_neg (by omega)]
    refine ⟨by rw [hlen]; simp, hcnt, hval, ?_⟩
    rw [← hstr]
    simp [accBits]
  · rw [if_pos (by omega)]
    simp only
    have hx := shift_pad_lt r s.currentWord (by omega) hw
    have hsh : u32 (s.currentWord <<< (20 - s.currentNumBits))
        = s.currentWord * 2 ^ (20 - r) := by
      rw [hnb, Nat.shiftLeft_eq, u32_of_lt (by omega)]
    rw [hsh]
    obtain ⟨_, r2, r3, _, _, r6⟩ := advancePosition_spec p t s
      (encodeCodeword ((s.currentWord * 2 ^ (20 - r)) ||| FLAG_MESSAGE))
      (s.currentWord * 2 ^ (20 - r)) s.currentNumBits hpos hlen hcnt
    refine ⟨?_, r3, valid_append hx hval r6, ?_⟩
    · rw [r2, if_neg hz]
    · have hmod : (20 - r) % 20 = 20 - r := by omega
      rw [stream_append hx r6, ← hstr, accBits_pad20 r _ (by omega), hmod,
        List.append_assoc]

/-- What `encodeASCII` returns and stores, for a start position `p < 16`: with
`cm` the bytes before the first NUL and `T = ceil (7 * |cm| / 20)`, it stores
`T + (p + T) / 16` words, returns that number modulo `2 ^ 32`, every word is
SYNC or a text codeword, and the text bit stream is the message bits followed
by the zero padding of the last word. -/
theorem encodeASCII_spec (p : Nat) (hp : p < 16) (m : List Byte) :
    (encodeASCII p m).2.length
        = (7 * (m.takeWhile (fun ch => ch ≠ 0)).length + 19) / 20
          + (p + (7 * (m.takeWhile (fun ch => ch ≠ 0)).length + 19) / 20) / 16 ∧
      (encodeASCII p m).1 = (encodeASCII p m).2.length % 2 ^ 32 ∧
      (∀ w ∈ (encodeASCII p m).2,
        w = SYNC ∨ ∃ x, x < 2 ^ 20 ∧ w = encodeCodeword (x ||| FLAG_MESSAGE)) ∧
      decodeStream (encodeASCII p m).2
        = msgBits (m.takeWhile (fun ch => ch ≠ 0)) ++ List.replicate
            ((20 - 7 * (m.takeWhile (fun ch => ch ≠ 0)).length % 20) % 20) false := by
  have hinv := foldl_charStep_inv (m.takeWhile (fun ch => ch ≠ 0)) (initState_inv p hp)
  rw [← encodeLoop_eq, List.nil_append] at hinv
  obtain ⟨hnb, hw, hpos, hlen, hcnt, hval, hstr⟩ := hinv
  rw [msgBits_length] at hnb hw hpos hlen
  rw [hnb] at hstr
  have hb : 7 * (m.takeWhile (fun ch => ch ≠ 0)).length % 20 < 20 :=
    Nat.mod_lt _ (by decide)
  obtain ⟨f1, f2, f3, f4⟩ := flushRemainder_spec p _ _ hb _ _ hnb hw hpos hlen hcnt hval hstr
  refine ⟨?_, f2, f3, f4⟩
  show (flushRemainder (encodeLoop m (initState p))).out.length = _
  rw [f1]
  generalize 7 * (m.takeWhile (fun ch => ch ≠ 0)).length = N
  split <;> omega

theorem addressOffset_eq (a : Nat) : addressOffset a = 2 * (a % 8) := by
  unfold addressOffset
  have h : a &&& 0x7 = a % 8 := Nat.and_pow_two_sub_one_eq_mod a 3
  have : a % 8 < 8 := Nat.mod_lt _ (by decide)
  rw [h, u32_of_lt (by simp only [FRAME_SIZE]; omega)]
  simp only [FRAME_SIZE]
  omega

theorem startPosition_eq (a : Nat) :
    u32 (addressOffset a + 1) = 2 * (a % 8) + 1 := by
  have : a % 8 < 8 := Nat.mod_lt _ (by decide)
  rw [addressOffset_eq, u32_of_lt (by omega)]

theorem addressPayload_eq (a : Nat) (ha : a < 2 ^ 21) :
    u32 ((a >>> 3) <<< 2) ||| FLAG_TEXT_DATA = (a / 8) * 4 + 3 := by
  have h1 : (a >>> 3) <<< 2 = (a / 8) * 2 ^ 2 := by
    rw [Nat.shiftLeft_eq, Nat.shiftRight_eq_div_pow]
  rw [h1, u32_of_lt (by omega),
    or_eq_add_of_mul _ _ _ (show FLAG_TEXT_DATA < 2 ^ 2 by decide)]
  rfl

/-! ## The transmission -/

theorem encodeTransmission_eq (a : Nat) (m : List Byte) :
    encodeTransmission a m
      = List.replicate 18 0xAAAAAAAA ++ ([SYNC] ++ (List.replicate (2 * (a % 8)) IDLE
          ++ ([encodeCodeword (u32 ((a >>> 3) <<< 2) ||| FLAG_TEXT_DATA)]
          ++ ((encodeASCII (2 * (a % 8) + 1) m).2 ++ ([IDLE] ++ List.replicate
            (17 - (1 + 2 * (a % 8) + 1 + (encodeASCII (2 * (a % 8) + 1) m).1 + 1) % 17)
            IDLE))))) := by
  have h : u32 (2 * (a % 8) + 1) = 2 * (a % 8) + 1 := by
    have h0 := startPosition_eq a
    rw [addressOffset_eq] at h0
    exact h0
  unfold encodeTransmission
  simp only [addressOffset_eq, h, List.append_assoc]
  rfl

theorem startPosition_lt (a : Nat) : 2 * (a % 8) + 1 < 16 := by
  have : a % 8 < 8 := Nat.mod_lt _ (by decide)
  omega

theorem addressWord_spec (a : Nat) (ha : a < 2 ^ 21) :
    encodeCodeword (u32 ((a >>> 3) <<< 2) ||| FLAG_TEXT_DATA) >>> 11 = (a / 8) * 4 + 3 ∧
      encodeCodeword (u32 ((a >>> 3) <<< 2) ||| FLAG_TEXT_DATA) < 2 ^ 31 ∧
      encodeCodeword (u32 ((a >>> 3) <<< 2) ||| FLAG_TEXT_DATA) ≠ IDLE := by
  rw [addressPayload_eq a ha]
  have hP : (a / 8) * 4 + 3 < 2 ^ 20 := by omega
  have hsh := encodeCodeword_shiftRight ((a / 8) * 4 + 3) (by omega)
  refine ⟨hsh, ?_, ?_⟩
  · have hc := crc_lt ((a / 8) * 4 + 3)
    have hpar := parity_lt_two (((a / 8) * 4 + 3) * 2 ^ 10 + crc ((a / 8) * 4 + 3))
    rw [encodeCodeword_eq _ (by omega)]
    omega
  · intro h
    rw [h] at hsh
    have hI : IDLE >>> 11 = 1003832 := by decide
    rw [hI] at hsh
    omega

theorem getElem?_after (l : List Nat) (w : Nat) (rest : List Nat) (n : Nat)
    (h : l.length = n) : (l ++ w :: rest)[n]? = some w := by
  subst h
  rw [List.getElem?_append_right (Nat.le_refl _)]
  simp

/-! ## The message framer: main results -/

/-- C1: for every address (in particular every 21-bit one) and every NUL-free
message of `n` bytes with `7 * n + 19` inside the signed 32-bit range, the
number of words `encodeTransmission` writes, preamble included, is
`textMessageLength a n`. -/
theorem length_consistency (a : Nat) (m : List Byte) (hm : ∀ ch ∈ m, ch ≠ 0)
    (hn : 7 * m.length + 19 < 2 ^ 31) :
    (encodeTransmission a m).length = textMessageLength a m.length := by
  obtain ⟨h1, h2, _, _⟩ := encodeASCII_spec (2 * (a % 8) + 1) (startPosition_lt a) m
  rw [takeWhile_nul_free m hm] at h1
  have hk : a % 8 < 8 := Nat.mod_lt _ (by decide)
  have hL : (encodeASCII (2 * (a % 8) + 1) m).2.length < 2 ^ 32 := by omega
  rw [Nat.mod_eq_of_lt hL] at h2
  rw [encodeTransmission_eq]
  unfold textMessageLength
  simp only [List.length_append, List.length_replicate, List.length_singleton,
    addressOffset_eq, BATCH_SIZE, PREAMBLE_LENGTH, TEXT_BITS_PER_CHAR,
    TEXT_BITS_PER_WORD]
  rw [h2, h1, Nat.mul_comm m.length 7]
  clear hn hL h1 h2
  generalize (7 * m.length + (20 - 1)) / 20 = T
  generalize a % 8 = k at hk
  omega

theorem length_consistency_witness :
    (∀ ch ∈ ([72, 73] : List Byte), ch ≠ 0) ∧ 7 * ([72, 73] : List Byte).length + 19 < 2 ^ 31 ∧
      (encodeTransmission 1234567 [72, 73]).length
        = textMessageLength 1234567 ([72, 73] : List Byte).length :=
  ⟨by simp, by decide, length_consistency 1234567 [72, 73] (by simp) (by decide)⟩

/-- C3: for every address and every message whose length fits 32 bits (so
that the `uint32_t` word counter of `encodeASCII` does not wrap), the output
starts with the 18 preamble words and the number of words written after them,
from the origin SYNC to the last padding word, is a multiple of 17. -/
theorem batch_alignment (a : Nat) (m : List Byte) (hm : m.length < 2 ^ 32) :
    (encodeTransmission a m).take 18 = List.replicate 18 0xAAAAAAAA ∧
      ((encodeTransmission a m).drop 18).length % 17 = 0 := by
  obtain ⟨h1, h2, _, _⟩ := encodeASCII_spec (2 * (a % 8) + 1) (startPosition_lt a) m
  have hle := (List.takeWhile_sublist (l := m) (fun ch : Byte => ch ≠ 0)).length_le
  have hk : a % 8 < 8 := Nat.mod_lt _ (by decide)
  have hL : (encodeASCII (2 * (a % 8) + 1) m).2.length < 2 ^ 32 := by omega
  rw [Nat.mod_eq_of_lt hL] at h2
  rw [encodeTransmission_eq]
  refine ⟨List.take_left' (by simp), ?_⟩
  rw [List.drop_left' (by simp)]
  simp only [List.length_append, List.length_replicate, List.length_singleton]
  rw [h2]
  omega

theorem batch_alignment_witness :
    ([72, 73] : List Byte).length < 2 ^ 32 ∧
      ((encodeTransmission 1234567 [72, 73]).drop 18).length % 17 = 0 :=
  ⟨by decide, (batch_alignment 1234567 [72, 73] (by decide)).2⟩

/-- C4: for every address `a < 2 ^ 21` and every message, with `k = a & 7`,
the output begins with 18 words `0xAAAAAAAA`, then SYNC (index 18), then
exactly `2 * k = addressOffset a` IDLE words, then, at index `19 + 2 * k`,
the address codeword `encodeCodeword (((a >> 3) << 2) | 3)`, which is not
IDLE: the address word is the first word of frame `a & 7` of the first
batch. -/
theorem address_placement (a : Nat) (m : List Byte) (ha : a < 2 ^ 21) :
    addressOffset a = 2 * (a &&& 7) ∧
      addressOffset a / FRAME_SIZE = a &&& 7 ∧ addressOffset a % FRAME_SIZE = 0 ∧
      (∃ rest, encodeTransmission a m
        = List.replicate 18 0xAAAAAAAA ++ [SYNC] ++ List.replicate (2 * (a &&& 7)) IDLE
          ++ [encodeCodeword (((a >>> 3) <<< 2) ||| 3)] ++ rest) ∧
      encodeCodeword (((a >>> 3) <<< 2) ||| 3) ≠ IDLE ∧
      (encodeTransmission a m)[18]? = some SYNC ∧
      (encodeTransmission a m)[19 + 2 * (a &&& 7)]?
        = some (encodeCodeword (((a >>> 3) <<< 2) ||| 3)) := by
  have hand : a &&& 7 = a % 8 := Nat.and_pow_two_sub_one_eq_mod a 3
  have hk : a % 8 < 8 := Nat.mod_lt _ (by decide)
  have hpay : u32 ((a >>> 3) <<< 2) ||| FLAG_TEXT_DATA = ((a >>> 3) <<< 2) ||| 3 := by
    have h1 : (a >>> 3) <<< 2 = (a / 8) * 2 ^ 2 := by
      rw [Nat.shiftLeft_eq, Nat.shiftRight_eq_div_pow]
    rw [h1, u32_of_lt (by omega)]
    rfl
  have hne := (addressWord_spec a ha).2.2
  rw [hpay] at hne
  rw [hand, addressOffset_eq, encodeTransmission_eq, hpay]
  simp only [FRAME_SIZE]
  refine ⟨trivial, by omega, by omega,
    ⟨(encodeASCII (2 * (a % 8) + 1) m).2 ++ ([IDLE] ++ List.replicate
      (17 - (1 + 2 * (a % 8) + 1 + (encodeASCII (2 * (a % 8) + 1) m).1 + 1) % 17) IDLE),
      by simp only [List.append_assoc]⟩, hne, ?_, ?_⟩
  · exact getElem?_after (List.replicate 18 0xAAAAAAAA) SYNC _ 18 (by simp)
  · have e : ∀ rest : List Nat,
        List.replicate 18 0xAAAAAAAA ++ ([SYNC] ++ (List.replicate (2 * (a % 8)) IDLE
          ++ ([encodeCodeword (((a >>> 3) <<< 2) ||| 3)] ++ rest)))
        = (List.replicate 18 0xAAAAAAAA ++ ([SYNC] ++ List.replicate (2 * (a % 8)) IDLE))
          ++ encodeCodeword (((a >>> 3) <<< 2) ||| 3) :: rest := by
      intro rest
      simp only [List.append_assoc, List.singleton_append, List.cons_append,
        List.nil_append]
    rw [e]
    exact getElem?_after _ _ _ _ (by simp; omega)

theorem address_placement_witness :
    (1234567 : Nat) < 2 ^ 21 ∧ addressOffset 1234567 = 2 * (1234567 &&& 7) ∧
      (encodeTransmission 1234567 [72, 73])[19 + 2 * (1234567 &&& 7)]?
        = some (encodeCodeword (((1234567 >>> 3) <<< 2) ||| 3)) :=
  ⟨by decide, (address_placement 1234567 [72, 73] (by decide)).1,
    (address_placement 1234567 [72, 73] (by decide)).2.2.2.2.2.2⟩

/-- The words that follow the preamble and the origin SYNC. -/
theorem drop_origin (a : Nat) (m : List Byte) :
    (encodeTransmission a m).drop 19
      = List.replicate (2 * (a % 8)) IDLE
        ++ encodeCodeword (u32 ((a >>> 3) <<< 2) ||| FLAG_TEXT_DATA)
          :: ((encodeASCII (2 * (a % 8) + 1) m).2 ++ ([IDLE] ++ List.replicate
            (17 - (1 + 2 * (a % 8) + 1 + (encodeASCII (2 * (a % 8) + 1) m).1 + 1) % 17)
            IDLE)) := by
  rw [encodeTransmission_eq, ← List.append_assoc, ← List.append_assoc,
    List.append_assoc _ (List.replicate (2 * (a % 8)) IDLE)]
  rw [List.drop_left' (by simp)]
  rfl

/-- C5: the address is recovered from the transmission.  For every address
`a < 2 ^ 21` and every message, let `n` be the number of IDLE words after the
origin SYNC, `w` the word that follows them and `f = n / 2` its frame number.
Then `w` is the address codeword, bit 31 of `w` is 0, `(w >> 11) & 3 = 3`
and `((w >> 13) << 3) | f = a`. -/
theorem address_roundtrip (a : Nat) (m : List Byte) (ha : a < 2 ^ 21) :
    ∃ w, ((encodeTransmission a m).drop 19)[idleCount ((encodeTransmission a m).drop 19)]?
          = some w ∧
      w = encodeCodeword (((a >>> 3) <<< 2) ||| 3) ∧
      w.testBit 31 = false ∧ (w >>> 11) &&& 3 = 3 ∧
      ((w >>> 13) <<< 3) ||| (idleCount ((encodeTransmission a m).drop 19) / 2) = a := by
  obtain ⟨h1, h2, h3⟩ := addressWord_spec a ha
  have hpay : u32 ((a >>> 3) <<< 2) ||| FLAG_TEXT_DATA = ((a >>> 3) <<< 2) ||| 3 := by
    have e : (a >>> 3) <<< 2 = (a / 8) * 2 ^ 2 := by
      rw [Nat.shiftLeft_eq, Nat.shiftRight_eq_div_pow]
    rw [e, u32_of_lt (by omega)]
    rfl
  have hk : a % 8 < 8 := Nat.mod_lt _ (by decide)
  have hcount : idleCount ((encodeTransmission a m).drop 19) = 2 * (a % 8) := by
    unfold idleCount
    rw [drop_origin, List.takeWhile_append_of_pos, List.takeWhile_cons_of_neg]
    · simp
    · simpa using h3
    · intro x hx
      simpa using (List.mem_replicate.1 hx).2
  rw [hcount, drop_origin, hpay]
  rw [hpay] at h1 h2
  refine ⟨_, getElem?_after _ _ _ _ (by simp), rfl, ?_, ?_, ?_⟩
  · exact Nat.testBit_lt_two_pow h2
  · rw [h1]
    have : (3 : Nat) = 2 ^ 2 - 1 := by decide
    rw [this, Nat.and_pow_two_sub_one_eq_mod]
    omega
  · have e13 : encodeCodeword (((a >>> 3) <<< 2) ||| 3) >>> 13 = a / 8 := by
      rw [Nat.shiftRight_eq_div_pow] at h1 ⊢
      omega
    rw [e13, shl_or_eq_add _ _ _ (by omega)]
    omega

theorem address_roundtrip_witness :
    (1234567 : Nat) < 2 ^ 21 ∧
      ∃ w, ((encodeTransmission 1234567 [72, 73]).drop 19)[idleCount
            ((encodeTransmission 1234567 [72, 73]).drop 19)]? = some w ∧
        w = encodeCodeword (((1234567 >>> 3) <<< 2) ||| 3) ∧
        w.testBit 31 = false ∧ (w >>> 11) &&& 3 = 3 ∧
        ((w >>> 13) <<< 3)
          ||| (idleCount ((encodeTransmission 1234567 [72, 73]).drop 19) / 2) = 1234567 :=
  ⟨by decide, address_roundtrip 1234567 [72, 73] (by decide)⟩

/-- C10: for every address `a < 2 ^ 21` and every message, every word written
after the 18 preamble words that is neither SYNC nor IDLE is a valid codeword
of its own top 21 bits: `w = encodeCodeword (w >> 11)`. -/
theorem data_words_valid (a : Nat) (m : List Byte) (ha : a < 2 ^ 21) :
    ∀ w ∈ (encodeTransmission a m).drop 18,
      w ≠ SYNC → w ≠ IDLE → w = encodeCodeword (w >>> 11) := by
  obtain ⟨_, _, hval, _⟩ := encodeASCII_spec (2 * (a % 8) + 1) (startPosition_lt a) m
  rw [encodeTransmission_eq, List.drop_left' (by simp)]
  intro w hw hs hi
  simp only [List.mem_append, List.mem_singleton, List.mem_replicate] at hw
  rcases hw with hw | hw | hw | hw | hw | hw
  · exact absurd hw hs
  · exact absurd hw.2 hi
  · rw [addressPayload_eq a ha] at hw
    rw [hw, encodeCodeword_shiftRight _ (by omega)]
  · rcases hval w hw with h | ⟨x, hx, h⟩
    · exact absurd h hs
    · rw [h, flag_or x hx, encodeCodeword_shiftRight _ (by omega)]
  · exact absurd hw hi
  · exact absurd hw.2 hi

theorem data_words_valid_witness :
    (1234567 : Nat) < 2 ^ 21 ∧
      ∀ w ∈ (encodeTransmission 1234567 [72, 73]).drop 18,
        w ≠ SYNC → w ≠ IDLE → w = encodeCodeword (w >>> 11) :=
  ⟨by decide, data_words_valid 1234567 [72, 73] (by decide)⟩

/-! ## The text bit stream -/

theorem msgBits_cons (ch : Byte) (rest : List Byte) :
    msgBits (ch :: rest)
      = (List.range 7).map (fun i => ch.val.testBit i) ++ msgBits rest := by
  simp [msgBits]

theorem msgBits_getElem? (tail : List Bool) : ∀ (m : List Byte) (k : Nat)
    (hk : k < m.length) (i : Nat), i < 7 →
    (msgBits m ++ tail)[7 * k + i]? = some ((m[k]).val.testBit i) := by
  intro m
  induction m with
  | nil => intro k hk; simp at hk
  | cons ch rest ih =>
    intro k hk i hi
    rw [msgBits_cons, List.append_assoc]
    cases k with
    | zero =>
      rw [List.getElem?_append_left (by simp; omega)]
      simp [List.getElem?_map, List.getElem?_range, hi]
    | succ k =>
      rw [List.getElem?_append_right (by simp; omega)]
      have e : 7 * (k + 1) + i
          - ((List.range 7).map (fun i => ch.val.testBit i)).length = 7 * k + i := by
        simp; omega
      rw [e]
      exact ih k (by simpa using hk) i hi

theorem msgBits_group (tail : List Bool) : ∀ (m : List Byte) (k : Nat)
    (hk : k < m.length),
    ((msgBits m ++ tail).drop (7 * k)).take 7
      = (List.range 7).map (fun i => (m[k]).val.testBit i) := by
  intro m
  induction m with
  | nil => intro k hk; simp at hk
  | cons ch rest ih =>
    intro k hk
    rw [msgBits_cons, List.append_assoc]
    cases k with
    | zero =>
      rw [Nat.mul_zero, List.drop_zero, List.take_left' (by simp)]
      rfl
    | succ k =>
      have e : 7 * (k + 1)
          = ((List.range 7).map (fun i => ch.val.testBit i)).length + 7 * k := by
        simp; omega
      rw [e, List.drop_append]
      exact ih k (by simpa using hk)

theorem groupValue_bits (n : Nat) : ∀ c : Nat,
    groupValue ((List.range n).map (fun i => c.testBit i)) = c % 2 ^ n := by
  induction n with
  | zero => intro c; simp [groupValue, Nat.mod_one]
  | succ n ih =>
    intro c
    have hmap : (List.range (n + 1)).map (fun i => c.testBit i)
        = c.testBit 0 :: (List.range n).map (fun i => (c / 2).testBit i) := by
      rw [List.range_succ_eq_map, List.map_cons, List.map_map]
      congr 1
      apply List.map_congr_left
      intro j _
      simp [Nat.testBit_succ]
    rw [hmap, groupValue, ih, Nat.pow_succ', Nat.mod_mul, Nat.testBit_zero]
    have : c % 2 < 2 := Nat.mod_lt _ (by decide)
    by_cases h : c % 2 = 1
    · simp [h]
    · have h0 : c % 2 = 0 := by omega
      simp [h0]

/-- C6: text packing round trip.  For every start position `p < 16` and every
message `m` of `n` non-zero bytes, in the text bit stream of the words that
`encodeASCII p m` writes (SYNC words dropped, bits 30..11 of each remaining
word, most significant first) the bit at position `7 * k + i` is bit `i` of
`m[k]`, for `k < n` and `i < 7`; every bit at a position `>= 7 * n` is 0;
the stream holds 20 bits for each of the `ceil (7 * n / 20)` text words; and
the `k`-th group of 7 bits, read in reverse, is `m[k] & 0x7F`. -/
theorem text_roundtrip (p : Nat) (m : List Byte) (hp : p < 16)
    (hm : ∀ ch ∈ m, ch ≠ 0) :
    (decodeStream (encodeASCII p m).2).length = 20 * ((7 * m.length + 19) / 20) ∧
      (∀ (k : Nat) (hk : k < m.length) (i : Nat), i < 7 →
        (decodeStream (encodeASCII p m).2)[7 * k + i]? = some ((m[k]).val.testBit i)) ∧
      (∀ j, 7 * m.length ≤ j → j < (decodeStream (encodeASCII p m).2).length →
        (decodeStream (encodeASCII p m).2)[j]? = some false) ∧
      (∀ (k : Nat) (hk : k < m.length),
        groupValue (((decodeStream (encodeASCII p m).2).drop (7 * k)).take 7)
          = (m[k]).val &&& 0x7F) := by
  obtain ⟨_, _, _, hstr⟩ := encodeASCII_spec p hp m
  rw [takeWhile_nul_free m hm] at hstr
  rw [hstr]
  refine ⟨?_, ?_, ?_, ?_⟩
  · rw [List.length_append, msgBits_length, List.length_replicate]
    omega
  · intro k hk i hi
    exact msgBits_getElem? _ m k hk i hi
  · intro j hj hlt
    rw [List.length_append, msgBits_length, List.length_replicate] at hlt
    rw [List.getElem?_append_right (by rw [msgBits_length]; exact hj),
      List.getElem?_replicate, msgBits_length, if_pos (by omega)]
  · intro k hk
    have h7 : (0x7F : Nat) = 2 ^ 7 - 1 := by decide
    rw [msgBits_group _ m k hk, groupValue_bits, h7, Nat.and_pow_two_sub_one_eq_mod]

theorem text_roundtrip_witness :
    (15 : Nat) < 16 ∧ (∀ ch ∈ ([72, 73] : List Byte), ch ≠ 0) ∧
      (decodeStream (encodeASCII 15 [72, 73]).2).length
        = 20 * ((7 * ([72, 73] : List Byte).length + 19) / 20) ∧
      (∀ j, 7 * ([72, 73] : List Byte).length ≤ j →
        j < (decodeStream (encodeASCII 15 [72, 73]).2).length →
        (decodeStream (encodeASCII 15 [72, 73]).2)[j]? = some false) :=
  ⟨by decide, by simp, (text_roundtrip 15 [72, 73] (by decide) (by simp)).1,
    (text_roundtrip 15 [72, 73] (by decide) (by simp)).2.2.1⟩

/-! ## The padding batch -/

/-- C2, evaluated at address 7 with the empty message: 34 words follow the
preamble; the word at index 0 is SYNC, the address codeword is at index 15,
the IDLE terminator at index 16 ends the first batch, and the word at index
17, where the next batch starts, is IDLE and not SYNC. -/
theorem padding_batch_without_sync :
    ((encodeTransmission 7 []).drop 18).length = 34 ∧
      ((encodeTransmission 7 []).drop 18)[0]? = some SYNC ∧
      ((encodeTransmission 7 []).drop 18)[17]? = some IDLE ∧
      IDLE ≠ SYNC ∧
      (encodeTransmission 7 []).length = textMessageLength 7 0 := by
  decide

/-! ## Control words and data codewords -/

/-- C11, as stated, fails: the codeword of the top 21 bits of IDLE is IDLE
itself, so IDLE is a valid codeword. -/
theorem idle_not_codeword_refuted : ¬ (encodeCodeword (IDLE >>> 11) ≠ IDLE) := by
  decide

/-- C11, amended: IDLE (`0x7A89C197`) is a valid codeword.  Its top 21 bits
are a 21-bit payload whose codeword is IDLE: bits 10..1 of IDLE are the CRC
of that payload and bit 0 is the parity of the upper 31 bits. -/
theorem idle_is_codeword :
    IDLE = 0x7A89C197 ∧ IDLE >>> 11 < 2 ^ 21 ∧
      encodeCodeword (IDLE >>> 11) = IDLE ∧
      (IDLE >>> 1) &&& 0x3FF = crc (IDLE >>> 11) ∧
      IDLE &&& 1 = parity (IDLE >>> 1) := by
  decide

/-- C20: no data codeword collides with a control word.  For every address
`a < 2 ^ 21` the address codeword is neither SYNC nor IDLE, for every 20-bit
text chunk `t` the text codeword `encodeCodeword (t | 0x100000)` is neither
SYNC nor IDLE, and every word of a transmission after the preamble is SYNC,
IDLE, the address codeword or such a text codeword: the SYNC and IDLE words
of a transmission are exactly the control words the framer inserted. -/
theorem no_collision (a t : Nat) (m : List Byte) (ha : a < 2 ^ 21) (ht : t < 2 ^ 20) :
    encodeCodeword (((a >>> 3) <<< 2) ||| 3) ≠ SYNC ∧
      encodeCodeword (((a >>> 3) <<< 2) ||| 3) ≠ IDLE ∧
      encodeCodeword (t ||| 0x100000) ≠ SYNC ∧
      encodeCodeword (t ||| 0x100000) ≠ IDLE ∧
      ∀ w ∈ (encodeTransmission a m).drop 18,
        w = SYNC ∨ w = IDLE ∨ w = encodeCodeword (((a >>> 3) <<< 2) ||| 3) ∨
          ∃ x, x < 2 ^ 20 ∧ w = encodeCodeword (x ||| 0x100000) := by
  obtain ⟨h1, _, h3⟩ := addressWord_spec a ha
  obtain ⟨_, t2, t3⟩ := textWord_spec t ht
  have hpay : u32 ((a >>> 3) <<< 2) ||| FLAG_TEXT_DATA = ((a >>> 3) <<< 2) ||| 3 := by
    have e : (a >>> 3) <<< 2 = (a / 8) * 2 ^ 2 := by
      rw [Nat.shiftLeft_eq, Nat.shiftRight_eq_div_pow]
    rw [e, u32_of_lt (by omega)]
    rfl
  rw [hpay] at h1 h3
  refine ⟨?_, h3, t3, ?_, ?_⟩
  · intro h
    rw [h] at h1
    have hS : SYNC >>> 11 = 1022530 := by decide
    rw [hS] at h1
    omega
  · intro h
    have hflag : FLAG_MESSAGE = 0x100000 := rfl
    rw [hflag, h] at t2
    exact absurd t2 (by decide)
  · obtain ⟨_, _, hval, _⟩ := encodeASCII_spec (2 * (a % 8) + 1) (startPosition_lt a) m
    rw [encodeTransmission_eq, List.drop_left' (by simp), hpay]
    intro w hw
    simp only [List.mem_append, List.mem_singleton, List.mem_replicate] at hw
    rcases hw with hw | hw | hw | hw | hw | hw
    · exact Or.inl hw
    · exact Or.inr (Or.inl hw.2)
    · exact Or.inr (Or.inr (Or.inl hw))
    · rcases hval w hw with h | h
      · exact Or.inl h
      · exact Or.inr (Or.inr (Or.inr h))
    · exact Or.inr (Or.inl hw)
    · exact Or.inr (Or.inl hw.2)

theorem no_collision_witness :
    (1234567 : Nat) < 2 ^ 21 ∧ (78400 : Nat) < 2 ^ 20 ∧
      encodeCodeword (((1234567 >>> 3) <<< 2) ||| 3) ≠ SYNC ∧
      encodeCodeword (((1234567 >>> 3) <<< 2) ||| 3) ≠ IDLE ∧
      encodeCodeword (78400 ||| 0x100000) ≠ SYNC ∧
      encodeCodeword (78400 ||| 0x100000) ≠ IDLE :=
  ⟨by decide, by decide,
    (no_collision 1234567 78400 [72, 73] (by decide) (by decide)).1,
    (no_collision 1234567 78400 [72, 73] (by decide) (by decide)).2.1,
    (no_collision 1234567 78400 [72, 73] (by decide) (by decide)).2.2.1,
    (no_collision 1234567 78400 [72, 73] (by decide) (by decide)).2.2.2.1⟩

/-! ## Worked examples -/

/-- C12, as stated, fails: the low three bits of 1234567 are 7, so
`addressOffset 1234567` is not 6 and the words after the origin SYNC are not
6 IDLE words followed by the address codeword, a text word and IDLE. -/
theorem example_hi_refuted :
    ¬ (addressOffset 1234567 = 6 ∧
      ((encodeTransmission 1234567 [72, 73]).drop 19).take 9
        = List.replicate 6 IDLE
          ++ [encodeCodeword (((1234567 >>> 3) <<< 2) ||| 3),
              encodeCodeword (0x13240 ||| FLAG_MESSAGE), IDLE]) := by
  decide

/-- C12, amended: for address 1234567 and message "HI",
`addressOffset 1234567 = 14`, and the words written after the origin SYNC are
14 IDLE words, the address codeword, one text word carrying "HI" (14 bits,
zero-padded to 20), a SYNC word (the text word fills the last slot of the
first batch), the IDLE terminator, and 15 IDLE padding words. -/
theorem example_hi :
    1234567 &&& 7 = 7 ∧ addressOffset 1234567 = 14 ∧
      (encodeTransmission 1234567 [72, 73]).drop 18
        = [SYNC] ++ List.replicate 14 IDLE
          ++ [encodeCodeword (((1234567 >>> 3) <<< 2) ||| 3),
              encodeCodeword (0x13240 ||| FLAG_MESSAGE), SYNC, IDLE]
          ++ List.replicate 15 IDLE ∧
      textBits (encodeCodeword (0x13240 ||| FLAG_MESSAGE))
        = msgBits [72, 73] ++ List.replicate 6 false := by
  decide

theorem encodeASCII_nil (p : Nat) : encodeASCII p [] = (0, []) := rfl

/-- C13: the empty message.  For every address `a < 2 ^ 21`, `encodeASCII`
stores no word and returns 0, `encodeTransmission a ""` writes exactly
`textMessageLength a 0` words, the address codeword is at index
`19 + 2 * (a & 7)`, and every word written after it (the terminator and the
padding) is IDLE. -/
theorem empty_message (a : Nat) (ha : a < 2 ^ 21) :
    encodeASCII (u32 (addressOffset a + 1)) [] = (0, []) ∧
      (encodeTransmission a []).length = textMessageLength a 0 ∧
      (encodeTransmission a [])[19 + 2 * (a &&& 7)]?
        = some (encodeCodeword (((a >>> 3) <<< 2) ||| 3)) ∧
      ((encodeTransmission a []).drop (20 + 2 * (a &&& 7))).length
        = 1 + (17 - (2 * (a &&& 7) + 3) % 17) ∧
      ∀ w ∈ (encodeTransmission a []).drop (20 + 2 * (a &&& 7)), w = IDLE := by
  have hand : a &&& 7 = a % 8 := Nat.and_pow_two_sub_one_eq_mod a 3
  have hk : a % 8 < 8 := Nat.mod_lt _ (by decide)
  have hpay : u32 ((a >>> 3) <<< 2) ||| FLAG_TEXT_DATA = ((a >>> 3) <<< 2) ||| 3 := by
    have e : (a >>> 3) <<< 2 = (a / 8) * 2 ^ 2 := by
      rw [Nat.shiftLeft_eq, Nat.shiftRight_eq_div_pow]
    rw [e, u32_of_lt (by omega)]
    rfl
  have e : encodeTransmission a []
      = (List.replicate 18 0xAAAAAAAA ++ ([SYNC] ++ List.replicate (2 * (a % 8)) IDLE))
        ++ encodeCodeword (((a >>> 3) <<< 2) ||| 3)
          :: (IDLE :: List.replicate (17 - (2 * (a % 8) + 3) % 17) IDLE) := by
    rw [encodeTransmission_eq, encodeASCII_nil, hpay]
    have : 1 + 2 * (a % 8) + 1 + 0 + 1 = 2 * (a % 8) + 3 := by omega
    simp only [this, List.append_assoc, List.singleton_append, List.cons_append,
      List.nil_append]
  have e2 : encodeTransmission a []
      = (List.replicate 18 0xAAAAAAAA ++ ([SYNC] ++ (List.replicate (2 * (a % 8)) IDLE
          ++ [encodeCodeword (((a >>> 3) <<< 2) ||| 3)])))
        ++ (IDLE :: List.replicate (17 - (2 * (a % 8) + 3) % 17) IDLE) := by
    rw [e]
    simp only [List.append_assoc, List.singleton_append, List.cons_append,
      List.nil_append]
  refine ⟨encodeASCII_nil _, ?_, ?_, ?_, ?_⟩
  · rw [e]
    unfold textMessageLength
    simp only [List.length_append, List.length_replicate, List.length_singleton,
      List.length_cons, List.length_nil, addressOffset_eq, BATCH_SIZE,
      PREAMBLE_LENGTH, TEXT_BITS_PER_CHAR, TEXT_BITS_PER_WORD]
    clear e e2 hpay hand ha
    generalize a % 8 = k at hk
    omega
  · rw [hand, e]
    exact getElem?_after _ _ _ _ (by simp; omega)
  · rw [hand, e2, List.drop_left' (by simp; omega)]
    simp
    omega
  · rw [hand, e2, List.drop_left' (by simp; omega)]
    intro w hw
    simp only [List.mem_cons, List.mem_replicate] at hw
    rcases hw with hw | hw
    · exact hw
    · exact hw.2

theorem empty_message_witness :
    (7 : Nat) < 2 ^ 21 ∧
      (encodeTransmission 7 []).length = textMessageLength 7 0 ∧
      ∀ w ∈ (encodeTransmission 7 []).drop (20 + 2 * (7 &&& 7)), w = IDLE :=
  ⟨by decide, (empty_message 7 (by decide)).2.1, (empty_message 7 (by decide)).2.2.2.2⟩

/-! ## Positions of the SYNC words -/

theorem syncPos_nil (p : Nat) : SyncPos p [] := by
  intro j
  simp

theorem syncPos_append_text {p t w : Nat} {l : List Nat} (h : SyncPos p l)
    (hlen : l.length = t + (p + t) / 16) (hw : w ≠ SYNC) :
    SyncPos p (l ++ [w]) := by
  intro j
  rw [List.getElem?_append, List.length_append, List.length_singleton]
  by_cases h1 : j < l.length
  · rw [if_pos h1, h j]
    constructor
    · intro hj; exact ⟨by omega, hj.2⟩
    · intro hj; exact ⟨h1, hj.2⟩
  · rw [if_neg h1]
    by_cases h2 : j = l.length
    · subst h2
      simp only [Nat.sub_self, List.getElem?_cons_zero, Option.some.injEq]
      constructor
      · intro hj; exact absurd hj hw
      · intro hj
        exfalso
        have := hj.2
        omega
    · have h3 : j - l.length ≠ 0 := by omega
      obtain ⟨i, hi⟩ := Nat.exists_eq_succ_of_ne_zero h3
      rw [hi]
      simp only [List.getElem?_cons_succ, List.getElem?_nil]
      constructor
      · intro hj; exact absurd hj (by simp)
      · intro hj; omega

theorem syncPos_append_sync {p t : Nat} {l : List Nat} (h : SyncPos p l)
    (hlen : l.length = t + 1 + (p + t) / 16) (hfull : (p + t) % 16 + 1 = 16) :
    SyncPos p (l ++ [SYNC]) := by
  intro j
  rw [List.getElem?_append, List.length_append, List.length_singleton]
  by_cases h1 : j < l.length
  · rw [if_pos h1, h j]
    constructor
    · intro hj; exact ⟨by omega, hj.2⟩
    · intro hj; exact ⟨h1, hj.2⟩
  · rw [if_neg h1]
    by_cases h2 : j = l.length
    · subst h2
      simp only [Nat.sub_self, List.getElem?_cons_zero, true_iff]
      exact ⟨by omega, by omega⟩
    · have h3 : j - l.length ≠ 0 := by omega
      obtain ⟨i, hi⟩ := Nat.exists_eq_succ_of_ne_zero h3
      rw [hi]
      simp only [List.getElem?_cons_succ, List.getElem?_nil]
      constructor
      · intro hj; exact absurd hj (by simp)
      · intro hj; omega

/-- Storing a text word and advancing the position keeps the SYNC words in
place. -/
theorem advancePosition_sync (p t : Nat) (s : EncState) (x cw nb : Nat)
    (hx : x < 2 ^ 20) (hpos : s.wordPosition = (p + t) % 16)
    (hlen : s.out.length = t + (p + t) / 16) (hs : SyncPos p s.out) :
    SyncPos p (advancePosition
      { s with
        out := s.out ++ [encodeCodeword (x ||| FLAG_MESSAGE)]
        currentWord := cw
        currentNumBits := nb
        numWordsWritten := u32 (s.numWordsWritten + 1) }).out := by
  have hwp : s.wordPosition < 16 := by rw [hpos]; exact Nat.mod_lt _ (by decide)
  have hu : u32 (s.wordPosition + 1) = s.wordPosition + 1 := u32_of_lt (by omega)
  have h1 := syncPos_append_text hs hlen (textWord_spec x hx).2.2
  unfold advancePosition
  simp only
  rw [hu]
  by_cases hfull : s.wordPosition + 1 = 16
  · rw [if_pos (by rw [hfull]; rfl)]
    simp only
    refine syncPos_append_sync h1 ?_ (by rw [← hpos]; exact hfull)
    rw [List.length_append, List.length_singleton, hlen]
    omega
  · rw [if_neg (by intro hc; exact hfull hc)]
    exact h1

theorem bitStep_sync {p : Nat} {bs : List Bool} {s : EncState} (c i : Nat)
    (h : EncInv p bs s) (hs : SyncPos p s.out) :
    SyncPos p (bitStep c s i).out := by
  obtain ⟨hnb, hw, hpos, hlen, _, _, _⟩ := h
  have hb : bs.length % 20 < 20 := Nat.mod_lt _ (by decide)
  have hpw : 2 ^ (bs.length % 20) ≤ 2 ^ 19 :=
    Nat.pow_le_pow_right (by decide) (by omega)
  have hbl : (if c.testBit i then 1 else 0) < 2 := by split <;> decide
  have hcw : u32 (s.currentWord <<< 1) ||| ((c >>> i) &&& 1)
      = 2 * s.currentWord + (if c.testBit i then 1 else 0) := by
    rw [shifted_bit, Nat.shiftLeft_eq, u32_of_lt (by omega),
      or_eq_add_of_mul s.currentWord 1 _ hbl]
    omega
  have hcwlt : 2 * s.currentWord + (if c.testBit i then 1 else 0)
      < 2 ^ (bs.length % 20 + 1) := by
    rw [Nat.pow_succ]; omega
  have hnb' : u32 (s.currentNumBits + 1) = bs.length % 20 + 1 := by
    rw [hnb, u32_of_lt (by omega)]
  unfold bitStep
  simp only
  rw [hcw, hnb']
  by_cases hfull : bs.length % 20 + 1 = 20
  · rw [if_pos (by rw [hfull]; rfl)]
    have hx : 2 * s.currentWord + (if c.testBit i then 1 else 0) < 2 ^ 20 := by
      rw [hfull] at hcwlt; exact hcwlt
    exact advancePosition_sync p (bs.length / 20) s _ 0 0 hx hpos hlen hs
  · rw [if_neg (by intro hc; exact hfull hc)]
    exact hs

theorem charStep_sync {p : Nat} {bs : List Bool} {s : EncState} (ch : Byte)
    (h : EncInv p bs s) (hs : SyncPos p s.out) : SyncPos p (charStep s ch).out := by
  have key : ∀ k, EncInv p (bs ++ (List.range k).map (fun i => ch.val.testBit i))
        ((List.range k).foldl (bitStep ch.val) s) ∧
      SyncPos p ((List.range k).foldl (bitStep ch.val) s).out := by
    intro k
    induction k with
    | zero => exact ⟨by simpa using h, by simpa using hs⟩
    | succ k ih =>
      rw [List.range_succ, List.foldl_append, List.map_append, ← List.append_assoc]
      exact ⟨bitStep_inv ch.val k ih.1, bitStep_sync ch.val k ih.1 ih.2⟩
  exact (key 7).2

theorem foldl_charStep_sync {p : Nat} (m : List Byte) :
    ∀ {bs : List Bool} {s : EncState}, EncInv p bs s → SyncPos p s.out →
      SyncPos p (m.foldl charStep s).out := by
  induction m with
  | nil => intro bs s _ hs; simpa using hs
  | cons ch rest ih =>
    intro bs s h hs
    rw [List.foldl_cons]
    exact ih (charStep_inv ch h) (charStep_sync ch h hs)

theorem flushRemainder_sync (p t r : Nat) (hr : r < 20) (s : EncState)
    (hnb : s.currentNumBits = r) (hw : s.currentWord < 2 ^ r)
    (hpos : s.wordPosition = (p + t) % 16)
    (hlen : s.out.length = t + (p + t) / 16) (hs : SyncPos p s.out) :
    SyncPos p (flushRemainder s).out := by
  unfold flushRemainder
  by_cases hz : r = 0
  · subst hz
    rw [if_neg (by omega)]
    exact hs
  · rw [if_pos (by omega)]
    simp only
    have hx := shift_pad_lt r s.currentWord (by omega) hw
    have hsh : u32 (s.currentWord <<< (20 - s.currentNumBits))
        = s.currentWord * 2 ^ (20 - r) := by
      rw [hnb, Nat.shiftLeft_eq, u32_of_lt (by omega)]
    rw [hsh]
    exact advancePosition_sync p t s _ _ _ hx hpos hlen hs

/-- The SYNC words that `encodeASCII` stores, for a start position `p < 16`,
stand exactly at the indices `j` with `(p + j + 1) % 17 = 0`. -/
theorem encodeASCII_sync (p : Nat) (hp : p < 16) (m : List Byte) :
    SyncPos p (encodeASCII p m).2 := by
  have hinv := foldl_charStep_inv (m.takeWhile (fun ch => ch ≠ 0)) (initState_inv p hp)
  have hsync := foldl_charStep_sync (m.takeWhile (fun ch => ch ≠ 0))
    (initState_inv p hp) (syncPos_nil p)
  rw [← encodeLoop_eq] at hinv hsync
  obtain ⟨hnb, hw, hpos, hlen, _, _, _⟩ := hinv
  exact flushRemainder_sync p _ _ (Nat.mod_lt _ (by decide)) _ hnb hw hpos hlen hsync

/-- In a sequence of SYNC words and text codewords, the text codewords are
the words with bit 31 set, and each contributes 20 bits to the stream. -/
theorem decodeStream_length : ∀ l : List Nat,
    (∀ w ∈ l, w = SYNC ∨ ∃ x, x < 2 ^ 20 ∧ w = encodeCodeword (x ||| FLAG_MESSAGE)) →
    (decodeStream l).length = 20 * (l.filter (fun w => w.testBit 31)).length := by
  intro l
  induction l with
  | nil => intro _; rfl
  | cons w rest ih =>
    intro h
    have hrest := ih (fun v hv => h v (List.mem_cons_of_mem _ hv))
    have e : w :: rest = [w] ++ rest := rfl
    rw [e, decodeStream_append, List.length_append, hrest, List.filter_append,
      List.length_append]
    rcases h w (List.mem_cons_self _ _) with hw | ⟨x, hx, hw⟩
    · rw [hw, decodeStream_sync]
      have : SYNC.testBit 31 = false := by decide
      simp [this]
    · rw [hw, decodeStream_textWord x hx, accBits_length]
      have hge := (textWord_spec x hx).2.1
      have hlt : encodeCodeword (x ||| FLAG_MESSAGE) < 2 ^ 32 := by
        rw [flag_or x hx]
        exact encodeCodeword_lt _ (by omega)
      have hbit : (encodeCodeword (x ||| FLAG_MESSAGE)).testBit 31 = true := by
        have : encodeCodeword (x ||| FLAG_MESSAGE) / 2 ^ 31 = 1 := by omega
        rw [Nat.testBit_to_div_mod, this]
        rfl
      simp [hbit]
      omega

/-- C18: for every start position `p < 16` and every message of `n` non-zero
bytes (`n` below `2 ^ 32`, so that the `uint32_t` counter does not wrap), with
`T = ceil (7 * n / 20)`: `encodeASCII p m` returns `T + (p + T) / 16`, which
is the number of words it stored; exactly `T` of them have bit 31 set, and
those are text codewords; and the word at index `j` is SYNC exactly when
`(p + j + 1) % 17 = 0`. -/
theorem encodeASCII_count (p : Nat) (m : List Byte) (hp : p < 16)
    (hm : ∀ ch ∈ m, ch ≠ 0) (hlen : m.length < 2 ^ 32) :
    (encodeASCII p m).1
        = (7 * m.length + 19) / 20 + (p + (7 * m.length + 19) / 20) / 16 ∧
      (encodeASCII p m).2.length = (encodeASCII p m).1 ∧
      ((encodeASCII p m).2.filter (fun w => w.testBit 31)).length
        = (7 * m.length + 19) / 20 ∧
      (∀ w ∈ (encodeASCII p m).2, w.testBit 31 = true →
        ∃ x, x < 2 ^ 20 ∧ w = encodeCodeword (x ||| FLAG_MESSAGE)) ∧
      ∀ j, j < (encodeASCII p m).2.length →
        ((encodeASCII p m).2[j]? = some SYNC ↔ (p + j + 1) % 17 = 0) := by
  obtain ⟨h1, h2, hval, hstr⟩ := encodeASCII_spec p hp m
  rw [takeWhile_nul_free m hm] at h1 hstr
  have hL : (encodeASCII p m).2.length < 2 ^ 32 := by omega
  rw [Nat.mod_eq_of_lt hL] at h2
  have hcount := decodeStream_length _ hval
  rw [hstr, List.length_append, msgBits_length, List.length_replicate] at hcount
  refine ⟨by rw [h2, h1], h2.symm, by omega, ?_, ?_⟩
  · intro w hw hbit
    rcases hval w hw with h | h
    · rw [h] at hbit
      exact absurd hbit (by decide)
    · exact h
  · intro j hj
    have := encodeASCII_sync p hp m j
    rw [this]
    exact ⟨fun h => h.2, fun h => ⟨hj, h⟩⟩

theorem encodeASCII_count_witness :
    (15 : Nat) < 16 ∧ (∀ ch ∈ ([72, 73] : List Byte), ch ≠ 0) ∧
      ([72, 73] : List Byte).length < 2 ^ 32 ∧
      (encodeASCII 15 [72, 73]).1
        = (7 * ([72, 73] : List Byte).length + 19) / 20
          + (15 + (7 * ([72, 73] : List Byte).length + 19) / 20) / 16 ∧
      (encodeASCII 15 [72, 73]).2.length = (encodeASCII 15 [72, 73]).1 :=
  ⟨by decide, by simp, by decide,
    (encodeASCII_count 15 [72, 73] (by decide) (by simp) (by decide)).1,
    (encodeASCII_count 15 [72, 73] (by decide) (by simp) (by decide)).2.1⟩

/-! ## Tail padding -/

/-- C17: tail padding.  For every address `a < 2 ^ 21` and every message
whose length `n` as a C string keeps `7 * n + 19` inside the signed 32-bit
range (the `int` sum of `textMessageLength` does not overflow, and the word
counter of `encodeASCII` does not wrap), let `w` be the number of words from
the origin SYNC through the IDLE terminator.  After those words
`encodeTransmission` appends exactly `17 - w % 17` IDLE words: at least 1, at
most 17, and 17 when `w` is a multiple of 17.  With
`d = addressOffset a + 1 + ceil (7n/20) + 1`, `textMessageLength a n` adds
`16 - d % 16` padding words, 16 of them when `d` is a multiple of 16, which
happens exactly when `w` is a multiple of 17; the framer's padding is the
calculator's, plus the SYNC word the calculator counts for the extra batch. -/
theorem tail_padding (a : Nat) (m : List Byte) (ha : a < 2 ^ 21)
    (hn : 7 * strlen m + 19 < 2 ^ 31) :
    encodeTransmission a m
        = List.replicate 18 0xAAAAAAAA
          ++ ([SYNC] ++ List.replicate (addressOffset a) IDLE
            ++ [encodeCodeword (((a >>> 3) <<< 2) ||| 3)]
            ++ (encodeASCII (addressOffset a + 1) m).2 ++ [IDLE])
          ++ List.replicate
            (17 - (addressOffset a + (encodeASCII (addressOffset a + 1) m).2.length + 3) % 17)
            IDLE ∧
      ([SYNC] ++ List.replicate (addressOffset a) IDLE
            ++ [encodeCodeword (((a >>> 3) <<< 2) ||| 3)]
            ++ (encodeASCII (addressOffset a + 1) m).2 ++ [IDLE]).length
        = addressOffset a + (encodeASCII (addressOffset a + 1) m).2.length + 3 ∧
      1 ≤ 17 - (addressOffset a + (encodeASCII (addressOffset a + 1) m).2.length + 3) % 17 ∧
      17 - (addressOffset a + (encodeASCII (addressOffset a + 1) m).2.length + 3) % 17 ≤ 17 ∧
      ((addressOffset a + (encodeASCII (addressOffset a + 1) m).2.length + 3) % 17 = 0 →
        17 - (addressOffset a + (encodeASCII (addressOffset a + 1) m).2.length + 3) % 17
          = 17) ∧
      textMessageLength a (strlen m)
        = (addressOffset a + 1 + (7 * strlen m + 19) / 20 + 1)
          + (16 - (addressOffset a + 1 + (7 * strlen m + 19) / 20 + 1) % 16)
          + ((addressOffset a + 1 + (7 * strlen m + 19) / 20 + 1)
            + (16 - (addressOffset a + 1 + (7 * strlen m + 19) / 20 + 1) % 16)) / 16
          + 18 ∧
      ((addressOffset a + 1 + (7 * strlen m + 19) / 20 + 1) % 16 = 0 →
        16 - (addressOffset a + 1 + (7 * strlen m + 19) / 20 + 1) % 16 = 16) ∧
      ((addressOffset a + (encodeASCII (addressOffset a + 1) m).2.length + 3) % 17 = 0 ↔
        (addressOffset a + 1 + (7 * strlen m + 19) / 20 + 1) % 16 = 0) ∧
      17 - (addressOffset a + (encodeASCII (addressOffset a + 1) m).2.length + 3) % 17
        = (16 - (addressOffset a + 1 + (7 * strlen m + 19) / 20 + 1) % 16)
          + (if (addressOffset a + 1 + (7 * strlen m + 19) / 20 + 1) % 16 = 0
              then 1 else 0) := by
  obtain ⟨h1, h2, _, _⟩ := encodeASCII_spec (2 * (a % 8) + 1) (startPosition_lt a) m
  have hk : a % 8 < 8 := Nat.mod_lt _ (by decide)
  have hT : (7 * (List.takeWhile (fun ch => decide (ch ≠ 0)) m).length + 19) / 20
      = (7 * strlen m + 19) / 20 := rfl
  rw [hT] at h1
  have hL : (encodeASCII (2 * (a % 8) + 1) m).2.length < 2 ^ 32 := by omega
  rw [Nat.mod_eq_of_lt hL] at h2
  have hpay : u32 ((a >>> 3) <<< 2) ||| FLAG_TEXT_DATA = ((a >>> 3) <<< 2) ||| 3 := by
    have e : (a >>> 3) <<< 2 = (a / 8) * 2 ^ 2 := by
      rw [Nat.shiftLeft_eq, Nat.shiftRight_eq_div_pow]
    rw [e, u32_of_lt (by omega)]
    rfl
  have hwr : 1 + 2 * (a % 8) + 1 + (encodeASCII (2 * (a % 8) + 1) m).2.length + 1
      = 2 * (a % 8) + (encodeASCII (2 * (a % 8) + 1) m).2.length + 3 := by omega
  unfold textMessageLength
  simp only [addressOffset_eq, BATCH_SIZE, PREAMBLE_LENGTH, TEXT_BITS_PER_CHAR,
    TEXT_BITS_PER_WORD]
  refine ⟨?_, ?_, ?_, ?_, ?_, ?_, ?_, ?_, ?_⟩
  · rw [encodeTransmission_eq, hpay, h2, hwr]
    simp only [List.append_assoc]
  · simp only [List.length_append, List.length_replicate, List.length_singleton]
    omega
  · omega
  · omega
  · omega
  · rw [Nat.mul_comm (strlen m) 7]
    omega
  · omega
  · rw [h1]
    generalize (7 * strlen m + 19) / 20 = T
    generalize a % 8 = k at hk
    omega
  · rw [h1]
    generalize (7 * strlen m + 19) / 20 = T
    generalize a % 8 = k at hk
    split <;> omega

theorem tail_padding_witness :
    (7 : Nat) < 2 ^ 21 ∧ 7 * strlen ([] : List Byte) + 19 < 2 ^ 31 ∧
      (addressOffset 7 + (encodeASCII (addressOffset 7 + 1) []).2.length + 3) % 17 = 0 ∧
      17 - (addressOffset 7 + (encodeASCII (addressOffset 7 + 1) []).2.length + 3) % 17
        = 17 :=
  ⟨by decide, by decide, by decide,
    (tail_padding 7 [] (by decide) (by decide)).2.2.2.2.1 (by decide)⟩

/-! ## The temporary sample buffer -/

theorem foldl_append_replicate {α : Type} (x : α) (n : Nat) (ps : List α) :
    (List.range n).foldl (fun ps _r => ps ++ [x]) ps = ps ++ List.replicate n x := by
  induction n with
  | zero => simp
  | succ n ih =>
    rw [List.range_succ, List.foldl_append, ih, List.replicate_succ']
    simp

theorem foldl_append_flatMap {α β : Type} (f : α → List β) (l : List α) :
    ∀ ps : List β, l.foldl (fun ps a => ps ++ f a) ps = ps ++ l.flatMap f := by
  induction l with
  | nil => intro ps; simp
  | cons a rest ih =>
    intro ps
    rw [List.foldl_cons, ih, List.flatMap_cons, List.append_assoc]

/-- The samples of one word: 32 runs of `repeatsPerBit` equal samples. -/
theorem wordStep_eq (r : Nat) (ps : List Int) (val : Nat) :
    wordStep r ps val
      = ps ++ (List.range 32).flatMap
          (fun bitNum => List.replicate r (bitSample ((val >>> (31 - bitNum)) &&& 1))) := by
  unfold wordStep
  simp only [foldl_append_replicate]
  exact foldl_append_flatMap _ _ ps

theorem synthesize_eq (r : Nat) (ws : List Nat) :
    synthesize r ws
      = ws.flatMap (fun val => (List.range 32).flatMap
          (fun bitNum => List.replicate r (bitSample ((val >>> (31 - bitNum)) &&& 1)))) := by
  unfold synthesize
  have h : wordStep r = fun ps val => ps ++ (List.range 32).flatMap
      (fun bitNum => List.replicate r (bitSample ((val >>> (31 - bitNum)) &&& 1))) := by
    funext ps val
    exact wordStep_eq r ps val
  rw [h, foldl_append_flatMap]
  simp

theorem length_flatMap_uniform {α β : Type} (f : α → List β) (c : Nat)
    (hf : ∀ x, (f x).length = c) (l : List α) :
    (l.flatMap f).length = l.length * c := by
  induction l with
  | nil => simp
  | cons a rest ih =>
    rw [List.flatMap_cons, List.length_append, ih, hf, List.length_cons]
    ring

/-- Indexing into a concatenation of blocks of the same length `c`. -/
theorem getElem?_flatMap_uniform {α β : Type} (f : α → List β) (c : Nat)
    (hc : 0 < c) (hf : ∀ x, (f x).length = c) : ∀ (l : List α) (j : Nat),
    (l.flatMap f)[j]? = (l[j / c]?).bind (fun x => (f x)[j % c]?) := by
  intro l
  induction l with
  | nil => intro j; simp
  | cons a rest ih =>
    intro j
    rw [List.flatMap_cons]
    by_cases hj : j < c
    · rw [List.getElem?_append_left (by rw [hf]; exact hj), Nat.div_eq_of_lt hj,
        Nat.mod_eq_of_lt hj]
      simp
    · have hge : c ≤ j := by omega
      rw [List.getElem?_append_right (by rw [hf]; exact hge), hf, ih]
      have h1 : j / c = (j - c) / c + 1 := by
        rw [← Nat.sub_add_cancel hge, Nat.add_div_right _ hc, Nat.add_sub_cancel]
      have h2 : j % c = (j - c) % c := by
        conv_lhs => rw [← Nat.sub_add_cancel hge]
        exact Nat.add_mod_right _ _
      rw [h1, h2, List.getElem?_cons_succ]

theorem wordSamples_length (r val : Nat) :
    ((List.range 32).flatMap
      (fun bitNum => List.replicate r (bitSample ((val >>> (31 - bitNum)) &&& 1)))).length
      = 32 * r := by
  rw [length_flatMap_uniform _ r (fun _ => List.length_replicate _ _), List.length_range]

theorem synthesize_length (r : Nat) (ws : List Nat) :
    (synthesize r ws).length = ws.length * 32 * r := by
  rw [synthesize_eq, length_flatMap_uniform _ (32 * r) (wordSamples_length r)]
  ring

/-- Sample `j` of the temporary buffer is the sample of bit `j / r` of the
word stream. -/
theorem synthesize_getElem? (r : Nat) (hr : 0 < r) (ws : List Nat) (j : Nat)
    (hj : j < ws.length * 32 * r) :
    (synthesize r ws)[j]? = some (bitSample (streamBit ws (j / r))) := by
  have hdiv : j / (32 * r) < ws.length := by
    rw [Nat.div_lt_iff_lt_mul (by omega)]
    calc j < ws.length * 32 * r := hj
      _ = ws.length * (32 * r) := by ring
  have hbit : j % (32 * r) / r < 32 := by
    rw [Nat.div_lt_iff_lt_mul hr]
    exact Nat.mod_lt _ (by omega)
  rw [synthesize_eq, getElem?_flatMap_uniform _ (32 * r) (by omega) (wordSamples_length r),
    List.getElem?_eq_getElem hdiv]
  simp only [Option.some_bind]
  rw [getElem?_flatMap_uniform _ r hr (fun _ => List.length_replicate _ _),
    List.getElem?_range hbit]
  simp only [Option.some_bind]
  rw [List.getElem?_replicate, if_pos (Nat.mod_lt _ hr)]
  have e1 : j / r / 32 = j / (32 * r) := by
    rw [Nat.div_div_eq_div_mul, Nat.mul_comm]
  have e2 : j / r % 32 = j % (32 * r) / r := by
    rw [Nat.mul_comm 32 r, Nat.mod_mul_right_div_self]
  unfold streamBit
  rw [e1, e2, List.getD_eq_getElem?_getD, List.getElem?_eq_getElem hdiv]
  rfl

/-! ## The resampling loop -/

/-- As long as every read stays inside the buffer, the resampling loop stores
the two bytes of the selected sample at each step. -/
theorem resample_fold (sampleRate : Nat) (samples : List Int) : ∀ K : Nat,
    (∀ k, k < K → k * SYMRATE / sampleRate < samples.length) →
    ((List.range K).map (fun k => 2 * k)).foldl (resampleStep sampleRate samples) (some [])
      = some ((List.range K).flatMap
          (fun k => sampleBytes (samples.getD (k * SYMRATE / sampleRate) 0))) := by
  intro K
  induction K with
  | zero => intro _; rfl
  | succ K ih =>
    intro h
    have hK := h K (Nat.lt_succ_self K)
    rw [List.range_succ, List.map_append, List.foldl_append,
      ih (fun k hk => h k (Nat.lt_succ_of_lt hk))]
    simp only [List.map_cons, List.map_nil, List.foldl_cons, List.foldl_nil,
      resampleStep]
    rw [Nat.mul_div_cancel_left K (by decide : 0 < 2), List.getElem?_eq_getElem hK]
    simp only [List.flatMap_append, List.flatMap_cons, List.flatMap_nil,
      List.append_nil, sampleBytes]
    rw [List.getD_eq_getElem?_getD, List.getElem?_eq_getElem hK]
    rfl

/-- With a baud rate that divides the symbol rate, every index the
resampling loop computes lies inside the temporary buffer. -/
theorem resample_index_lt (S B L n : Nat) (hS : 0 < S) (hB : 0 < B)
    (hdiv : B ∣ SYMRATE) (hn : n < L * 32 * S / B) :
    n * SYMRATE / S < L * 32 * (SYMRATE / B) := by
  obtain ⟨R, hR⟩ := hdiv
  have hq : SYMRATE / B = R := by
    rw [hR, Nat.mul_div_cancel_left R hB]
  have h1 : (n + 1) * B ≤ L * 32 * S := (Nat.le_div_iff_mul_le hB).1 hn
  have h2 : (n + 1) * B * R ≤ L * 32 * S * R := Nat.mul_le_mul_right R h1
  have h3 : 0 < B * R := by
    rw [← hR]; decide
  rw [hq, Nat.div_lt_iff_lt_mul hS, hR]
  calc n * (B * R) < n * (B * R) + B * R := by omega
    _ = (n + 1) * B * R := by ring
    _ ≤ L * 32 * S * R := h2
    _ = L * 32 * R * S := by ring

theorem outputSamples_eq (S B L : Nat) :
    (pcmTransmissionLength S B L + 1) / 2 = L * 32 * S / B ∧
      pcmTransmissionLength S B L / 2 = L * 32 * S / B := by
  unfold pcmTransmissionLength
  constructor <;> omega

/-- The bytes `pcmEncodeTransmission` stores, for a baud rate that divides the
symbol rate. -/
theorem pcmEncodeTransmission_eq (S B : Nat) (ws : List Nat) (hS : 0 < S)
    (hB : 0 < B) (hdiv : B ∣ SYMRATE) :
    pcmEncodeTransmission S B ws
      = some ((List.range (ws.length * 32 * S / B)).flatMap
          (fun k => sampleBytes ((synthesize (SYMRATE / B) ws).getD (k * SYMRATE / S) 0))) := by
  unfold pcmEncodeTransmission
  simp only
  rw [(outputSamples_eq S B ws.length).1]
  apply resample_fold
  intro k hk
  rw [synthesize_length]
  exact resample_index_lt S B ws.length k hS hB hdiv hk

theorem sampleAt_flatMap (K n : Nat) (hn : n < K) (g : Nat → Int) :
    sampleAt ((List.range K).flatMap (fun k => sampleBytes (g k))) n
      = sampleAt (sampleBytes (g n)) 0 := by
  have hlen : ∀ k : Nat, (sampleBytes (g k)).length = 2 := fun _ => rfl
  have e0 : 2 * n / 2 = n := by omega
  have e1 : (2 * n + 1) / 2 = n := by omega
  have e2 : 2 * n % 2 = 0 := by omega
  have e3 : (2 * n + 1) % 2 = 1 := by omega
  unfold sampleAt
  rw [getElem?_flatMap_uniform _ 2 (by decide) hlen,
    getElem?_flatMap_uniform _ 2 (by decide) hlen, e0, e1, e2, e3,
    List.getElem?_range hn]
  rfl

theorem sampleAt_bitSample (b : Nat) :
    sampleAt (sampleBytes (bitSample b)) 0
      = some (if b = 0 then 16383 else -16383) := by
  by_cases h : b = 0
  · rw [if_pos h]
    unfold bitSample
    rw [if_pos h]
    decide
  · rw [if_neg h]
    unfold bitSample
    rw [if_neg h]
    decide

theorem repeats_pos (B : Nat) (hB : 0 < B) (hdiv : B ∣ SYMRATE) :
    0 < SYMRATE / B :=
  Nat.div_pos (Nat.le_of_dvd (by decide) hdiv) hB

/-- Output sample `n` is the sample of bit `(n * 38400 / S) / (38400 / B)` of
the word stream. -/
theorem pcm_sample (S B : Nat) (ws : List Nat) (n : Nat) (hS : 0 < S) (hB : 0 < B)
    (hdiv : B ∣ SYMRATE) (hn : n < ws.length * 32 * S / B) :
    sampleAt ((List.range (ws.length * 32 * S / B)).flatMap
        (fun k => sampleBytes ((synthesize (SYMRATE / B) ws).getD (k * SYMRATE / S) 0))) n
      = some (if streamBit ws (n * SYMRATE / S / (SYMRATE / B)) = 0
          then 16383 else -16383) := by
  have hidx := resample_index_lt S B ws.length n hS hB hdiv hn
  rw [sampleAt_flatMap _ n hn
      (fun k => (synthesize (SYMRATE / B) ws).getD (k * SYMRATE / S) 0),
    List.getD_eq_getElem?_getD,
    synthesize_getElem? _ (repeats_pos B hB hdiv) ws _ hidx]
  exact sampleAt_bitSample _

theorem pcmBytes_length (K : Nat) (g : Nat → Int) :
    ((List.range K).flatMap (fun k => sampleBytes (g k))).length = K * 2 := by
  have hlen : ∀ k : Nat, (sampleBytes (g k)).length = 2 := fun _ => rfl
  rw [length_flatMap_uniform (fun k => sampleBytes (g k)) 2 hlen, List.length_range]

/-- A read outside the buffer makes the resampling loop fail. -/
theorem resample_fold_none (sampleRate : Nat) (samples : List Int) : ∀ K k : Nat,
    k < K → samples.length ≤ k * SYMRATE / sampleRate →
    ((List.range K).map (fun k => 2 * k)).foldl (resampleStep sampleRate samples) (some [])
      = none := by
  intro K
  induction K with
  | zero => intro k hk; omega
  | succ K ih =>
    intro k hk hbad
    rw [List.range_succ, List.map_append, List.foldl_append]
    simp only [List.map_cons, List.map_nil, List.foldl_cons, List.foldl_nil]
    by_cases hkK : k < K
    · rw [ih k hkK hbad]
      rfl
    · have e : k = K := by omega
      subst e
      cases hacc : ((List.range k).map (fun k => 2 * k)).foldl
          (resampleStep sampleRate samples) (some []) with
      | none => rfl
      | some bytes =>
        simp only [resampleStep]
        rw [Nat.mul_div_cancel_left k (by decide : 0 < 2), List.getElem?_eq_none hbad]

/-! ## The waveform renderer: main results -/

/-- The `size_t` computations of the renderer stay below `2 ^ 64` when
`2 * (L * 32 * S * 38400)` does: the product and the result of line 320, the
allocation size of line 343 and the products `(i / 2) * SYMRATE` of line 379. -/
theorem sizes_fit (S B L : Nat) (hS : 0 < S)
    (hfit : 2 * (L * 32 * S * 38400) < 2 ^ 64) :
    L * 32 * S < 2 ^ 64 ∧ L * 32 * S / B * 2 < 2 ^ 64 ∧
      2 * (L * 32 * (SYMRATE / B)) < 2 ^ 64 ∧
      ∀ n, n < L * 32 * S / B → n * SYMRATE < 2 ^ 64 := by
  have h1 : L * 32 * S / B ≤ L * 32 * S := Nat.div_le_self _ _
  have h2 : SYMRATE / B ≤ 38400 := Nat.div_le_self _ _
  have h3 : L * 32 * (SYMRATE / B) ≤ L * 32 * 38400 := Nat.mul_le_mul_left _ h2
  have h4 : L * 32 ≤ L * 32 * S := Nat.le_mul_of_pos_right _ hS
  refine ⟨by omega, by omega, by omega, ?_⟩
  intro n hn
  simp only [SYMRATE]
  omega

/-- C14: for every sample rate `S > 0`, every baud rate `B > 0` that divides
38400 and every word sequence of length `L` with `2 * (L * 32 * S * 38400)`
below `2 ^ 64` (no `size_t` computation of the renderer wraps: not the
product `L * 32 * S`, not the byte count, not the allocation size, not an
index product), `pcmEncodeTransmission` writes exactly
`pcmTransmissionLength S B L` bytes, where `pcmTransmissionLength` is
`((L * 32 * S) / B) * 2` with truncating division, an even number. -/
theorem pcm_length (S B : Nat) (ws : List Nat) (hS : 0 < S) (hB : 0 < B)
    (hdiv : B ∣ 38400) (hfit : 2 * (ws.length * 32 * S * 38400) < 2 ^ 64) :
    (∃ bytes, pcmEncodeTransmission S B ws = some bytes ∧
      bytes.length = pcmTransmissionLength S B ws.length ∧
      pcmTransmissionLength S B ws.length = ((ws.length * 32 * S) / B) * 2 ∧
      pcmTransmissionLength S B ws.length % 2 = 0) ∧
      ws.length * 32 * S < 2 ^ 64 ∧
      pcmTransmissionLength S B ws.length < 2 ^ 64 ∧
      2 * (ws.length * 32 * (38400 / B)) < 2 ^ 64 ∧
      ∀ n, n < pcmTransmissionLength S B ws.length / 2 → n * 38400 < 2 ^ 64 := by
  obtain ⟨f1, f2, f3, f4⟩ := sizes_fit S B ws.length hS hfit
  refine ⟨⟨_, pcmEncodeTransmission_eq S B ws hS hB hdiv, ?_, rfl, ?_⟩, f1, f2, f3, ?_⟩
  · rw [pcmBytes_length]
    rfl
  · unfold pcmTransmissionLength
    omega
  · intro n hn
    rw [(outputSamples_eq S B ws.length).2] at hn
    exact f4 n hn

theorem pcm_length_witness :
    (0 : Nat) < 22050 ∧ (0 : Nat) < 512 ∧ 512 ∣ 38400 ∧
      2 * ([SYNC, IDLE].length * 32 * 22050 * 38400) < 2 ^ 64 ∧
      ∃ bytes, pcmEncodeTransmission 22050 512 [SYNC, IDLE] = some bytes ∧
        bytes.length = pcmTransmissionLength 22050 512 [SYNC, IDLE].length ∧
        pcmTransmissionLength 22050 512 [SYNC, IDLE].length
          = (([SYNC, IDLE].length * 32 * 22050) / 512) * 2 ∧
        pcmTransmissionLength 22050 512 [SYNC, IDLE].length % 2 = 0 :=
  ⟨by decide, by decide, by decide, by decide,
    (pcm_length 22050 512 [SYNC, IDLE] (by decide) (by decide) (by decide)
      (by decide)).1⟩

/-- C15: for every sample rate `S > 0`, every baud rate `B > 0` that divides
38400 and every word sequence of length `L` with `2 * (L * 32 * S * 38400)`
below `2 ^ 64` (no `size_t` computation of the renderer wraps), output sample
`n` (low byte at `2 * n`, high byte at `2 * n + 1`), for `n` below the sample
count `(L * 32 * S) / B`, is `+16383` if bit number
`(n * 38400 / S) / (38400 / B)` of the word stream is 0 and `-16383` if it is
1.  At baud rate 512 and sample rate 38400, under the same bound for that
rate, the output holds `75 * 32 * L` samples and the 75 samples
`75 * j, ..., 75 * j + 74` are those of bit `j`. -/
theorem pcm_waveform (S B : Nat) (ws : List Nat) (n : Nat) (hS : 0 < S) (hB : 0 < B)
    (hdiv : B ∣ 38400) (hfit : 2 * (ws.length * 32 * S * 38400) < 2 ^ 64)
    (hfit0 : 2 * (ws.length * 32 * 38400 * 38400) < 2 ^ 64)
    (hn : n < ws.length * 32 * S / B) :
    (∃ bytes, pcmEncodeTransmission S B ws = some bytes ∧
      n < pcmTransmissionLength S B ws.length / 2 ∧
      pcmTransmissionLength S B ws.length < 2 ^ 64 ∧
      n * 38400 < 2 ^ 64 ∧
      sampleAt bytes n
        = some (if streamBit ws (n * 38400 / S / (38400 / B)) = 0
            then 16383 else -16383)) ∧
      ∃ bytes, pcmEncodeTransmission 38400 512 ws = some bytes ∧
        bytes.length = 2 * (75 * (32 * ws.length)) ∧
        bytes.length = pcmTransmissionLength 38400 512 ws.length ∧
        pcmTransmissionLength 38400 512 ws.length < 2 ^ 64 ∧
        ∀ j r, j < 32 * ws.length → r < 75 →
          (75 * j + r) * 38400 < 2 ^ 64 ∧
          sampleAt bytes (75 * j + r)
            = some (if streamBit ws j = 0 then 16383 else -16383) := by
  obtain ⟨_, f2, _, f4⟩ := sizes_fit S B ws.length hS hfit
  obtain ⟨_, g2, _, g4⟩ := sizes_fit 38400 512 ws.length (by decide) hfit0
  constructor
  · refine ⟨_, pcmEncodeTransmission_eq S B ws hS hB hdiv, ?_, f2, f4 n hn,
      pcm_sample S B ws n hS hB hdiv hn⟩
    rw [(outputSamples_eq S B ws.length).2]
    exact hn
  · have h512 : (512 : Nat) ∣ SYMRATE := by decide
    refine ⟨_, pcmEncodeTransmission_eq 38400 512 ws (by decide) (by decide) h512,
      ?_, ?_, g2, ?_⟩
    · rw [pcmBytes_length]
      omega
    · rw [pcmBytes_length]
      rfl
    · intro j r hj hr
      have hlt : 75 * j + r < ws.length * 32 * 38400 / 512 := by omega
      refine ⟨g4 _ hlt, ?_⟩
      rw [pcm_sample 38400 512 ws (75 * j + r) (by decide) (by decide) h512 hlt]
      have e : (75 * j + r) * SYMRATE / 38400 / (SYMRATE / 512) = j := by
        simp only [SYMRATE]
        omega
      rw [e]

theorem pcm_waveform_witness :
    (0 : Nat) < 22050 ∧ (0 : Nat) < 512 ∧ 512 ∣ 38400 ∧
      2 * ([SYNC, IDLE].length * 32 * 22050 * 38400) < 2 ^ 64 ∧
      2 * ([SYNC, IDLE].length * 32 * 38400 * 38400) < 2 ^ 64 ∧
      100 < [SYNC, IDLE].length * 32 * 22050 / 512 ∧
      ∃ bytes, pcmEncodeTransmission 22050 512 [SYNC, IDLE] = some bytes ∧
        100 < pcmTransmissionLength 22050 512 [SYNC, IDLE].length / 2 ∧
        pcmTransmissionLength 22050 512 [SYNC, IDLE].length < 2 ^ 64 ∧
        100 * 38400 < 2 ^ 64 ∧
        sampleAt bytes 100
          = some (if streamBit [SYNC, IDLE] (100 * 38400 / 22050 / (38400 / 512)) = 0
              then 16383 else -16383) :=
  ⟨by decide, by decide, by decide, by decide, by decide, by decide,
    (pcm_waveform 22050 512 [SYNC, IDLE] 100 (by decide) (by decide) (by decide)
      (by decide) (by decide) (by decide)).1⟩

/-- C16, as stated, fails: at sample rate 38400 and baud rate 1000, which does
not divide 38400, one word gives a buffer of `32 * 38 = 1216` samples and
1228 output samples; output sample 1227 reads index 1227, outside the buffer,
and the rendering fails. -/
theorem render_not_total :
    (0 : Nat) < 38400 ∧ (0 : Nat) < 1000 ∧
      1227 < pcmTransmissionLength 38400 1000 [0].length / 2 ∧
      ¬ (1227 * SYMRATE / 38400 < [0].length * 32 * (SYMRATE / 1000)) ∧
      (synthesize (SYMRATE / 1000) [0]).length = 1216 ∧
      pcmEncodeTransmission 38400 1000 [0] = none := by
  have hlen : (synthesize (SYMRATE / 1000) [0]).length = 1216 := by
    rw [synthesize_length]
    decide
  refine ⟨by decide, by decide, by decide, by decide, hlen, ?_⟩
  unfold pcmEncodeTransmission
  simp only
  rw [(outputSamples_eq 38400 1000 [0].length).1]
  refine resample_fold_none 38400 _ _ 1227 (by decide) ?_
  rw [hlen]
  decide

/-- C16, amended: the renderer is total over positive sample rates and
positive baud rates that divide 38400.  For every word sequence of length
`L` the temporary buffer holds `L * 32 * (38400 / B)` samples, every index
`n * 38400 / S` read for `n` below the output sample count
`pcmTransmissionLength / 2` is below that length, and the rendering
succeeds. -/
theorem render_total (S B : Nat) (ws : List Nat) (hS : 0 < S) (hB : 0 < B)
    (hdiv : B ∣ 38400) :
    (synthesize (SYMRATE / B) ws).length = ws.length * 32 * (38400 / B) ∧
      (∀ n, n < pcmTransmissionLength S B ws.length / 2 →
        n * 38400 / S < ws.length * 32 * (38400 / B)) ∧
      (pcmEncodeTransmission S B ws).isSome = true := by
  refine ⟨synthesize_length _ ws, ?_, ?_⟩
  · intro n hn
    rw [(outputSamples_eq S B ws.length).2] at hn
    exact resample_index_lt S B ws.length n hS hB hdiv hn
  · rw [pcmEncodeTransmission_eq S B ws hS hB hdiv]
    rfl

theorem render_total_witness :
    (0 : Nat) < 22050 ∧ (0 : Nat) < 1200 ∧ 1200 ∣ 38400 ∧
      (pcmEncodeTransmission 22050 1200 [SYNC, IDLE]).isSome = true :=
  ⟨by decide, by decide, by decide,
    (render_total 22050 1200 [SYNC, IDLE] (by decide) (by decide) (by decide)).2.2⟩

/-- C19: for a baud rate `B > 0` that divides 38400, a sample rate `S > 0`,
every word sequence of length `L` and every output sample index
`n < (L * 32 * S) / B`, the index `n * 38400 / S` that the resampling loop
reads (for `i = 2 * n`) is strictly below the buffer length
`L * 32 * (38400 / B)`: the read stays inside the temporary sample buffer. -/
theorem resample_in_bounds (S B : Nat) (ws : List Nat) (n : Nat) (hS : 0 < S)
    (hB : 0 < B) (hdiv : B ∣ 38400) (hn : n < ws.length * 32 * S / B) :
    n * 38400 / S < ws.length * 32 * (38400 / B) ∧
      (2 * n / 2) * SYMRATE / S < (synthesize (SYMRATE / B) ws).length ∧
      ((synthesize (SYMRATE / B) ws)[(2 * n / 2) * SYMRATE / S]?).isSome = true := by
  have h := resample_index_lt S B ws.length n hS hB hdiv hn
  have e : 2 * n / 2 = n := by omega
  have hlt : (2 * n / 2) * SYMRATE / S < (synthesize (SYMRATE / B) ws).length := by
    rw [e, synthesize_length]
    exact h
  refine ⟨h, hlt, ?_⟩
  rw [List.getElem?_eq_getElem hlt]
  rfl

theorem resample_in_bounds_witness :
    (0 : Nat) < 22050 ∧ (0 : Nat) < 2400 ∧ 2400 ∣ 38400 ∧
      587 < [SYNC, IDLE].length * 32 * 22050 / 2400 ∧
      587 * 38400 / 22050 < [SYNC, IDLE].length * 32 * (38400 / 2400) :=
  ⟨by decide, by decide, by decide, by decide,
    (resample_in_bounds 22050 2400 [SYNC, IDLE] 587 (by decide) (by decide) (by decide)
      (by decide)).1⟩

end Pocsag
